import Mathlib

/-!
The class tanelorn::String: a growable byte buffer over raw page allocations.

Embedding of `src/string.hpp` / `src/string.cpp`.

The buffer keeps three fields (`data`, `len`, `capacity`) and talks to the
host through `VirtualAlloc` / `VirtualFree`.  The host memory is modelled as
a list of regions (block-structured memory: a pointer is a region together
with an offset).  What the host answers to each allocation request is not
decided by the program, so the heap carries the list of answers still to
come; every theorem below quantifies over that list.  Every host call is
appended to a trace.
-/

set_option autoImplicit false

namespace tanelorn

/-! ## Machine integers -/

/-- Modelled from the spec: `defines.hpp` (the typedefs `u8`, `u64`) is not among
the sources; `len` and `capacity` are 64-bit unsigned integers, so arithmetic
on them is taken modulo this number. -/
def u64_size : Nat := 18446744073709551616

/-- Exclusive upper bound on the size of a region the host can hand out:
user-mode addresses of a 64-bit process lie below `2^63`. -/
def user_space : Nat := 9223372036854775808

/-! ## Host memory -/

/-- A non-null address: a region and a byte offset from its base. -/
structure Ptr where
  region : Nat
  offset : Nat
  deriving DecidableEq

/-- One region of host memory: its bytes and whether it is still allocated. -/
structure Block where
  bytes : List Nat
  live : Bool
  deriving DecidableEq

/-- A call made to the host allocator, with its arguments and result.
`none` is the null pointer. -/
inductive Call where
  | VirtualAlloc (lpAddress : Option Ptr) (dwSize : Nat) (result : Option Ptr)
  | VirtualFree (lpAddress : Option Ptr)
  deriving DecidableEq

/-- Host memory: the regions handed out so far (a region is named by its
index), the answers the host will give to the coming allocation requests
(`true`: willing to grant; an exhausted list refuses), and the calls made. -/
structure Heap where
  blocks : List Block
  answers : List Bool
  trace : List Call
  deriving DecidableEq

/-- Pointer arithmetic `p + n`. -/
def Ptr.add (p : Option Ptr) (n : Nat) : Option Ptr :=
  p.map fun q => { q with offset := q.offset + n }

/-- Size of region `r` when it is allocated. -/
def Heap.liveSize (h : Heap) (r : Nat) : Option Nat :=
  match h.blocks[r]? with
  | some blk => if blk.live then some blk.bytes.length else none
  | none => none

/-- The answer of the host to the next allocation request. -/
def Heap.willing (h : Heap) : Bool := h.answers.headD false

/-- `VirtualAlloc(lpAddress, dwSize, MEM_COMMIT | MEM_RESERVE, PAGE_READWRITE)`.
With a null `lpAddress` the host picks a new zero-filled region of `dwSize`
bytes.  With an address, the request is for the `dwSize` bytes starting
there; it can only be granted when that address is the end of an allocated
region.  The granted bytes are addressable right after that region, so they
are appended to its block as `dwSize` zero bytes; the range is all the same
a reservation of its own, based at the address returned, and the trace keeps
it apart (see `acquired`).  A request for zero bytes is rejected, and no
region reaches `user_space` bytes.  The call consumes one answer of the
host. -/
def Heap.VirtualAlloc (h : Heap) (lpAddress : Option Ptr) (dwSize : Nat) : Option Ptr × Heap :=
  let res : Option Ptr × List Block :=
    match lpAddress with
    | none =>
      if h.willing = true ∧ 0 < dwSize ∧ dwSize < user_space then
        (some ⟨h.blocks.length, 0⟩, h.blocks ++ [⟨List.replicate dwSize 0, true⟩])
      else (none, h.blocks)
    | some p =>
      match h.blocks[p.region]? with
      | some blk =>
        if h.willing = true ∧ 0 < dwSize ∧ blk.live = true ∧ p.offset = blk.bytes.length
            ∧ p.offset + dwSize < user_space then
          (some p, h.blocks.set p.region { blk with bytes := blk.bytes ++ List.replicate dwSize 0 })
        else (none, h.blocks)
      | none => (none, h.blocks)
  (res.1, { blocks := res.2, answers := h.answers.tail,
            trace := h.trace ++ [Call.VirtualAlloc lpAddress dwSize res.1] })

/-- `VirtualFree(lpAddress, 0, MEM_RELEASE)`: releases the region whose base
is `lpAddress`; any other address releases nothing.  The block is marked
unusable as a whole; which reservations were passed to the call is read from
the trace (see `releases`). -/
def Heap.VirtualFree (h : Heap) (lpAddress : Option Ptr) : Heap :=
  let blocks :=
    match lpAddress with
    | some p =>
      match h.blocks[p.region]? with
      | some blk =>
        if p.offset = 0 then h.blocks.set p.region { blk with live := false } else h.blocks
      | none => h.blocks
    | none => h.blocks
  { h with blocks := blocks, trace := h.trace ++ [Call.VirtualFree lpAddress] }

/-- Write of one byte through `p`; `none` when `p` is null or not inside an
allocated region. -/
def Heap.store (h : Heap) (p : Option Ptr) (v : Nat) : Option Heap :=
  match p with
  | none => none
  | some q =>
    match h.blocks[q.region]? with
    | some blk =>
      if blk.live = true ∧ q.offset < blk.bytes.length then
        some { h with blocks := h.blocks.set q.region { blk with bytes := blk.bytes.set q.offset v } }
      else none
    | none => none

/-- The `n` bytes readable from `p`; `none` when `p` is null or they are not
all inside one allocated region. -/
def Heap.load (h : Heap) (p : Option Ptr) (n : Nat) : Option (List Nat) :=
  match p with
  | none => none
  | some q =>
    match h.blocks[q.region]? with
    | some blk =>
      if blk.live = true ∧ q.offset + n ≤ blk.bytes.length then
        some ((blk.bytes.drop q.offset).take n)
      else none
    | none => none

/-- Write of the bytes `bs` starting at `p`; a write of no bytes touches
nothing. -/
def Heap.storeBytes (h : Heap) (p : Option Ptr) (bs : List Nat) : Option Heap :=
  if bs = [] then some h
  else
    match p with
    | none => none
    | some q =>
      match h.blocks[q.region]? with
      | some blk =>
        if blk.live = true ∧ q.offset + bs.length ≤ blk.bytes.length then
          let bytes := blk.bytes.take q.offset ++ bs ++ blk.bytes.drop (q.offset + bs.length)
          some { h with blocks := h.blocks.set q.region { blk with bytes := bytes } }
        else none
      | none => none

/-- `memcpy(dst, src, n)` between two places of host memory; copying zero
bytes touches nothing. -/
def Heap.memcpy (h : Heap) (dst src : Option Ptr) (n : Nat) : Option Heap :=
  if n = 0 then some h
  else
    match h.load src n with
    | some bs => h.storeBytes dst bs
    | none => none

/-- `CopyMemory(dst, s, n)` from a character sequence outside the heap. -/
def Heap.CopyMemory (h : Heap) (dst : Option Ptr) (s : List Nat) (n : Nat) : Option Heap :=
  if n ≤ s.length then h.storeBytes dst (s.take n) else none

/-! ## The buffer -/

/-- The fields of `class String`. -/
structure String where
  data : Option Ptr
  len : Nat
  capacity : Nat
  deriving DecidableEq

/-- How a call on the buffer ends: it returns; it reports a failure to its
caller; or it stops at an invalid memory access (undefined behaviour).  Each
carries the fields and the heap as they stand at that point. -/
inductive Outcome where
  | ret (self : String) (h : Heap)
  | raised (self : String) (h : Heap)
  | fault (self : String) (h : Heap)
  deriving DecidableEq

/-- `String::String()`. -/
def String.ctor (h : Heap) : Outcome :=
  Outcome.ret { data := none, len := 0, capacity := 0 } h

/-- The loop `while (*(s + slen++) != '\0') {}` run over the characters
readable from `s`; gives `slen` after the loop, `none` when the read runs
off the end of the readable characters. -/
def scan : List Nat → Nat → Option Nat
  | [], _ => none
  | c :: rest, slen =>
    if c ≠ 0 then scan rest ((slen + 1) % u64_size) else some ((slen + 1) % u64_size)

/-- `String::String(const char *s)`; `s = none` is the null pointer, otherwise
`s` is the sequence of characters readable from the pointer.  The `u64`
value `slen - 1` is `slen - 1` for a non-zero `slen` and wraps to
`u64_size - 1` at zero. -/
def String.ctor_s (s : Option (List Nat)) (h : Heap) : Outcome :=
  match s with
  | none => Outcome.ret { data := none, len := 0, capacity := 0 } h
  | some cs =>
    match scan cs 0 with
    | none => Outcome.fault { data := none, len := 0, capacity := 0 } h
    | some slen =>
      let n := if slen = 0 then u64_size - 1 else slen - 1
      let r := h.VirtualAlloc none n
      let self : String := { data := r.1, len := n, capacity := n }
      match r.2.CopyMemory self.data cs n with
      | some h2 => Outcome.ret self h2
      | none => Outcome.fault self r.2

/-- `String::~String()`. -/
def String.destroy (self : String) (h : Heap) : Heap :=
  if self.data ≠ none then h.VirtualFree self.data else h

/-- `String::as_ptr`. -/
def String.as_ptr (self : String) : Option Ptr := self.data

/-- `String::as_c_str`. -/
def String.as_c_str (self : String) : Option Ptr := self.data

/-- Lines 57-59 of `push`: the store, `len++`, `capacity *= 2`. -/
def String.push_grow (self : String) (ch : Nat) (h : Heap) : Outcome :=
  match h.store (Ptr.add self.data self.len) ch with
  | none => Outcome.fault self h
  | some h2 =>
    Outcome.ret { self with len := (self.len + 1) % u64_size,
                            capacity := (self.capacity * 2) % u64_size } h2

/-- `String::push(u8 ch)`. -/
def String.push (self : String) (ch : Nat) (h : Heap) : Outcome :=
  if self.data = none then
    let r := h.VirtualAlloc none 1
    let s1 : String := { self with data := r.1, capacity := 1 }
    match r.2.store s1.data ch with
    | none => Outcome.fault s1 r.2
    | some h2 => Outcome.ret { s1 with len := 1 } h2
  else if self.len = self.capacity then
    let r := h.VirtualAlloc (Ptr.add self.data self.capacity) self.capacity
    if r.1 = none then
      let r2 := r.2.VirtualAlloc none ((self.capacity * 2) % u64_size)
      match r2.2.memcpy r2.1 self.data self.len with
      | none => Outcome.fault self r2.2
      | some h3 =>
        let h4 := h3.VirtualFree self.data
        String.push_grow { self with data := r2.1 } ch h4
    else String.push_grow self ch r.2
  else
    match h.store (Ptr.add self.data self.len) ch with
    | none => Outcome.fault self h
    | some h2 => Outcome.ret { self with len := (self.len + 1) % u64_size } h2

/-- The bytes `[0, len)` read through `data`; no bytes for an empty buffer. -/
def String.content (self : String) (h : Heap) : List Nat :=
  match self.data with
  | none => []
  | some p =>
    match h.blocks[p.region]? with
    | some blk => (blk.bytes.drop p.offset).take self.len
    | none => []

/-- A run of `push` calls, stopping at the first one that does not return. -/
def String.pushAll (self : String) (h : Heap) : List Nat → Outcome
  | [] => Outcome.ret self h
  | ch :: rest =>
    match String.push self ch h with
    | Outcome.ret s1 h1 => String.pushAll s1 h1 rest
    | o => o

/-- The in-place request `push` makes on a full buffer: `next_addr` and the
heap after it. -/
def String.extendRequest (self : String) (h : Heap) : Option Ptr × Heap :=
  h.VirtualAlloc (Ptr.add self.data self.capacity) self.capacity

/-- The request for a new region `push` makes after a refused in-place
request: `new_addr` and the heap after it. -/
def String.freshRequest (self : String) (h : Heap) : Option Ptr × Heap :=
  (self.extendRequest h).2.VirtualAlloc none (self.capacity * 2 % u64_size)

/-- The host grants what the next `push` asks for: the single byte of an
empty buffer, or one of the two requests of a full one; a buffer with spare
room asks for nothing. -/
def String.Supplied (self : String) (h : Heap) : Prop :=
  if self.data = none then (h.VirtualAlloc none 1).1 ≠ none
  else if self.len = self.capacity then
    (self.extendRequest h).1 ≠ none ∨ (self.freshRequest h).1 ≠ none
  else True

/-- The fields carried by an outcome. -/
def Outcome.self : Outcome → String
  | Outcome.ret s _ => s
  | Outcome.raised s _ => s
  | Outcome.fault s _ => s

/-- The heap carried by an outcome. -/
def Outcome.heap : Outcome → Heap
  | Outcome.ret _ h => h
  | Outcome.raised _ h => h
  | Outcome.fault _ h => h

/-- The data-model invariant of the buffer: `len ≤ capacity`; with zero
`capacity`, `data` is null and `len` is zero; with positive `capacity`,
`data` is the base of an allocated region of at least `capacity` bytes. -/
def String.DataModel (self : String) (h : Heap) : Prop :=
  self.len ≤ self.capacity
    ∧ (self.capacity = 0 → self.data = none ∧ self.len = 0)
    ∧ (0 < self.capacity → ∃ r n, self.data = some ⟨r, 0⟩ ∧ h.liveSize r = some n
        ∧ self.capacity ≤ n)

/-- The buffers a constructor returns. -/
def String.Constructed (self : String) (h : Heap) : Prop :=
  (∃ h0, String.ctor h0 = Outcome.ret self h)
    ∨ (∃ s h0, String.ctor_s s h0 = Outcome.ret self h)

/-- The states a buffer is in after a constructor and any number of `push`
calls have returned. -/
inductive Reachable : String → Heap → Prop where
  | made {s : String} {h : Heap} : s.Constructed h → Reachable s h
  | pushed {s s1 : String} {h h1 : Heap} {ch : Nat} :
      Reachable s h → s.push ch h = Outcome.ret s1 h1 → Reachable s1 h1

/-- The buffer owns its storage: an empty buffer has null `data` and zero
`len` and `capacity`; otherwise `data` is the base of an allocated region of
exactly `capacity` bytes and `len ≤ capacity`. -/
def String.Valid (self : String) (h : Heap) : Prop :=
  match self.data with
  | none => self.len = 0 ∧ self.capacity = 0
  | some p =>
    p.offset = 0 ∧ 0 < self.capacity ∧ self.len ≤ self.capacity ∧ self.capacity < user_space
      ∧ h.liveSize p.region = some self.capacity

/-! ## Observers and the record of releases -/

/-- The call `as_ptr()` as a step of the program: the pointer it returns, and
the fields and the heap after it. -/
def String.call_as_ptr (self : String) (h : Heap) : Option Ptr × String × Heap :=
  (self.as_ptr, self, h)

/-- The call `as_c_str()` as a step of the program: the pointer it returns,
and the fields and the heap after it. -/
def String.call_as_c_str (self : String) (h : Heap) : Option Ptr × String × Heap :=
  (self.as_c_str, self, h)

/-- The addresses passed to `VirtualFree` in a trace, in call order. -/
def releases : List Call → List (Option Ptr)
  | [] => []
  | Call.VirtualFree p :: rest => p :: releases rest
  | Call.VirtualAlloc _ _ _ :: rest => releases rest

/-- The base address of region `r`. -/
def base (r : Nat) : Option Ptr := some ⟨r, 0⟩

/-- The addresses returned by the granted `VirtualAlloc` calls of a trace, in
call order.  Each granted call made with `MEM_RESERVE` reserves a range of
its own, based at the address it returns; only a `VirtualFree` of that
address releases it. -/
def acquired : List Call → List (Option Ptr)
  | [] => []
  | Call.VirtualAlloc _ _ (some p) :: rest => some p :: acquired rest
  | Call.VirtualAlloc _ _ none :: rest => acquired rest
  | Call.VirtualFree _ :: rest => acquired rest

/-! ## A sample run

The scenario `"ab"`, then `'c'`, `'d'`, `'e'`, on a host that grants the first
request, refuses the first in-place extension and grants everything after. -/

/-- The host before the run. -/
def sample_host : Heap := ⟨[], [true, false, true, true], []⟩

/-- The buffer made from `"ab"`. -/
def sample_ab : String := ⟨some ⟨0, 0⟩, 2, 2⟩

/-- The heap after the buffer was made from `"ab"`. -/
def sample_ab_heap : Heap :=
  ⟨[⟨[97, 98], true⟩], [false, true, true], [Call.VirtualAlloc none 2 (some ⟨0, 0⟩)]⟩

/-- The buffer after `'c'`, `'d'`, `'e'` were pushed. -/
def sample_abcde : String := ⟨some ⟨1, 0⟩, 5, 8⟩

/-- The heap after `'c'`, `'d'`, `'e'` were pushed. -/
def sample_abcde_heap : Heap :=
  ⟨[⟨[97, 98], false⟩, ⟨[97, 98, 99, 100, 101, 0, 0, 0], true⟩], [],
    [Call.VirtualAlloc none 2 (some ⟨0, 0⟩),
     Call.VirtualAlloc (some ⟨0, 2⟩) 2 none, Call.VirtualAlloc none 4 (some ⟨1, 0⟩),
     Call.VirtualFree (some ⟨0, 0⟩), Call.VirtualAlloc (some ⟨1, 4⟩) 4 (some ⟨1, 4⟩)]⟩

/-- A host that refuses every request. -/
def exhausted_host : Heap := ⟨[], [], []⟩

/-- A full one-byte buffer. -/
def sample_full : String := ⟨some ⟨0, 0⟩, 1, 1⟩

/-- The heap of the full one-byte buffer, on a host that refuses every further
request. -/
def sample_full_heap : Heap := ⟨[⟨[97], true⟩], [], []⟩

/-! ## A lifetime with a granted in-place extension

A source of 65536 bytes `'a'`, so that `data + capacity` is the start of the
next 64 KiB range, on a host that grants both requests. -/

/-- A host that grants the next two requests. -/
def granting_host : Heap := ⟨[], [true, true], []⟩

/-- The buffer made from the 65536-byte source. -/
def sample_64k : String := ⟨some ⟨0, 0⟩, 65536, 65536⟩

/-- The heap after the buffer was made from the 65536-byte source. -/
def sample_64k_heap : Heap :=
  ⟨[⟨List.replicate 65536 97, true⟩], [true], [] ++ [Call.VirtualAlloc none 65536 (some ⟨0, 0⟩)]⟩

/-- The buffer after `'x'` was pushed with the in-place request granted. -/
def sample_64k_grown : String := ⟨some ⟨0, 0⟩, 65537, 131072⟩

/-- The heap after `'x'` was pushed with the in-place request granted. -/
def sample_64k_grown_heap : Heap :=
  ⟨[⟨(List.replicate 65536 97 ++ List.replicate 65536 0).set 65536 120, true⟩], [],
    [] ++ [Call.VirtualAlloc none 65536 (some ⟨0, 0⟩)]
      ++ [Call.VirtualAlloc (some ⟨0, 65536⟩) 65536 (some ⟨0, 65536⟩)]⟩

/-! ## Facts about the host memory -/

theorem liveSize_eq_some {h : Heap} {r n : Nat} (hs : h.liveSize r = some n) :
    ∃ blk, h.blocks[r]? = some blk ∧ blk.live = true ∧ blk.bytes.length = n := by
  unfold Heap.liveSize at hs
  cases hb : h.blocks[r]? with
  | none => simp [hb] at hs
  | some blk =>
    simp only [hb] at hs
    by_cases hl : blk.live = true
    · simp [hl] at hs
      exact ⟨blk, rfl, hl, hs⟩
    · simp [hl] at hs

theorem liveSize_of_block {h : Heap} {r : Nat} {blk : Block} (hb : h.blocks[r]? = some blk)
    (hl : blk.live = true) : h.liveSize r = some blk.bytes.length := by
  simp [Heap.liveSize, hb, hl]

theorem valid_some {s : String} {h : Heap} {p : Ptr} (hd : s.data = some p) (hv : s.Valid h) :
    p.offset = 0 ∧ 0 < s.capacity ∧ s.len ≤ s.capacity ∧ s.capacity < user_space
      ∧ ∃ blk, h.blocks[p.region]? = some blk ∧ blk.live = true ∧ blk.bytes.length = s.capacity := by
  unfold String.Valid at hv
  rw [hd] at hv
  obtain ⟨h1, h2, h3, h4, h5⟩ := hv
  exact ⟨h1, h2, h3, h4, liveSize_eq_some h5⟩

theorem valid_none {s : String} {h : Heap} (hd : s.data = none) (hv : s.Valid h) :
    s.len = 0 ∧ s.capacity = 0 := by
  unfold String.Valid at hv
  rw [hd] at hv
  exact hv

/-! ## What `push` does, branch by branch -/

/-- Empty buffer, one byte granted. -/
theorem push_empty_granted (s : String) (ch : Nat) (h : Heap) (hd : s.data = none)
    (hw : h.willing = true) :
    s.push ch h = Outcome.ret ⟨some ⟨h.blocks.length, 0⟩, 1, 1⟩
      ⟨h.blocks ++ [⟨[ch], true⟩], h.answers.tail,
        h.trace ++ [Call.VirtualAlloc none 1 (some ⟨h.blocks.length, 0⟩)]⟩ := by
  simp [String.push, hd, Heap.VirtualAlloc, hw, user_space, Heap.store]

/-- Empty buffer, the byte refused: the null result is stored in `data`,
`capacity` is set, and the write through `data` is invalid. -/
theorem push_empty_refused (s : String) (ch : Nat) (h : Heap) (hd : s.data = none)
    (hw : h.willing = false) :
    s.push ch h = Outcome.fault ⟨none, s.len, 1⟩
      ⟨h.blocks, h.answers.tail, h.trace ++ [Call.VirtualAlloc none 1 none]⟩ := by
  simp [String.push, hd, Heap.VirtualAlloc, hw, Heap.store]

/-- Spare room: one store, nothing else. -/
theorem push_spare (s : String) (ch : Nat) (h : Heap) (p : Ptr) (blk : Block)
    (hd : s.data = some p) (hb : h.blocks[p.region]? = some blk) (hl : blk.live = true)
    (hlt : s.len ≠ s.capacity) (hin : p.offset + s.len < blk.bytes.length) :
    s.push ch h = Outcome.ret ⟨s.data, (s.len + 1) % u64_size, s.capacity⟩
      ⟨h.blocks.set p.region ⟨blk.bytes.set (p.offset + s.len) ch, true⟩, h.answers, h.trace⟩ := by
  simp [String.push, hd, hlt, Heap.store, Ptr.add, hb, hl, hin]

/-- Full buffer, in-place extension granted. -/
theorem push_full_extended (s : String) (ch : Nat) (h : Heap) (r : Nat) (blk : Block)
    (hd : s.data = some ⟨r, 0⟩) (hb : h.blocks[r]? = some blk) (hl : blk.live = true)
    (hsz : blk.bytes.length = s.capacity) (hfull : s.len = s.capacity) (hpos : 0 < s.capacity)
    (hw : h.willing = true) (hroom : s.capacity + s.capacity < user_space) :
    s.push ch h = Outcome.ret ⟨s.data, (s.len + 1) % u64_size, (s.capacity * 2) % u64_size⟩
      ⟨h.blocks.set r ⟨(blk.bytes ++ List.replicate s.capacity 0).set s.len ch, true⟩,
        h.answers.tail,
        h.trace ++ [Call.VirtualAlloc (some ⟨r, s.capacity⟩) s.capacity (some ⟨r, s.capacity⟩)]⟩ := by
  have hr : r < h.blocks.length := by
    by_contra hc
    rw [List.getElem?_eq_none (by omega)] at hb
    cases hb
  simp [String.push, hd, hfull, Heap.VirtualAlloc, Ptr.add, hb, hl, hsz, hw, hpos, hroom,
    String.push_grow, Heap.store, hr]

/-- Full buffer, in-place extension refused: the heap after the first request. -/
theorem extend_refused (s : String) (h : Heap) (r : Nat) (blk : Block)
    (hb : h.blocks[r]? = some blk)
    (hno : ¬ (h.willing = true ∧ s.capacity + s.capacity < user_space)) :
    h.VirtualAlloc (some ⟨r, s.capacity⟩) s.capacity =
      (none, ⟨h.blocks, h.answers.tail,
        h.trace ++ [Call.VirtualAlloc (some ⟨r, s.capacity⟩) s.capacity none]⟩) := by
  simp only [Heap.VirtualAlloc, hb]
  split
  · rename_i hc
    exact absurd ⟨hc.1, hc.2.2.2.2⟩ hno
  · rfl

theorem block_index_lt {h : Heap} {r : Nat} {blk : Block} (hb : h.blocks[r]? = some blk) :
    r < h.blocks.length := by
  by_contra hc
  rw [List.getElem?_eq_none (by omega)] at hb
  cases hb

/-- A request for a new region that the host grants. -/
theorem fresh_granted (h : Heap) (n : Nat) (hw : h.willing = true) (h0 : 0 < n)
    (hn : n < user_space) :
    h.VirtualAlloc none n = (some ⟨h.blocks.length, 0⟩,
      ⟨h.blocks ++ [⟨List.replicate n 0, true⟩], h.answers.tail,
        h.trace ++ [Call.VirtualAlloc none n (some ⟨h.blocks.length, 0⟩)]⟩) := by
  simp [Heap.VirtualAlloc, hw, h0, hn]

/-- A request for a new region that is not granted. -/
theorem fresh_refused (h : Heap) (n : Nat) (hno : ¬ (h.willing = true ∧ 0 < n ∧ n < user_space)) :
    h.VirtualAlloc none n = (none,
      ⟨h.blocks, h.answers.tail, h.trace ++ [Call.VirtualAlloc none n none]⟩) := by
  simp only [Heap.VirtualAlloc]
  rw [if_neg hno]

/-- The copy of a whole region into a new, larger, zero-filled one. -/
theorem memcpy_into_fresh (bl : List Block) (ans : List Bool) (tr : List Call) (r m : Nat)
    (blk : Block) (hb : bl[r]? = some blk) (hl : blk.live = true) (h0 : 0 < blk.bytes.length)
    (hm : blk.bytes.length ≤ m) :
    (Heap.mk (bl ++ [⟨List.replicate m 0, true⟩]) ans tr).memcpy (some ⟨bl.length, 0⟩)
        (some ⟨r, 0⟩) blk.bytes.length =
      some ⟨bl ++ [⟨blk.bytes ++ List.replicate (m - blk.bytes.length) 0, true⟩], ans, tr⟩ := by
  have hr : r < bl.length := by
    by_contra hc
    rw [List.getElem?_eq_none (by omega)] at hb
    cases hb
  have hb2 : (bl ++ [(⟨List.replicate m 0, true⟩ : Block)])[r]? = some blk := by
    rw [List.getElem?_append_left hr]; exact hb
  have hne : blk.bytes ≠ [] := by
    intro hc; rw [hc] at h0; simp at h0
  have hn0 : blk.bytes.length ≠ 0 := by omega
  simp [Heap.memcpy, hn0, Heap.load, hb2, hl, Heap.storeBytes, hne, hm]



/-- Full buffer, extension refused, new region granted: copy, release, adopt. -/
theorem push_full_moved (s : String) (ch : Nat) (h : Heap) (r : Nat) (blk : Block)
    (hd : s.data = some ⟨r, 0⟩) (hb : h.blocks[r]? = some blk) (hl : blk.live = true)
    (hsz : blk.bytes.length = s.capacity) (hfull : s.len = s.capacity) (hpos : 0 < s.capacity)
    (hw : h.willing = false) (hw2 : h.answers.tail.headD false = true)
    (hroom : s.capacity * 2 < user_space) :
    s.push ch h = Outcome.ret
      ⟨some ⟨h.blocks.length, 0⟩, (s.len + 1) % u64_size, (s.capacity * 2) % u64_size⟩
      ⟨h.blocks.set r ⟨blk.bytes, false⟩
          ++ [⟨(blk.bytes ++ List.replicate s.capacity 0).set s.len ch, true⟩],
        h.answers.tail.tail,
        h.trace ++ [Call.VirtualAlloc (some ⟨r, s.capacity⟩) s.capacity none,
          Call.VirtualAlloc none (s.capacity * 2) (some ⟨h.blocks.length, 0⟩),
          Call.VirtualFree (some ⟨r, 0⟩)]⟩ := by
  have hr := block_index_lt hb
  have hmod : s.capacity * 2 % u64_size = s.capacity * 2 := by
    unfold user_space at hroom; unfold u64_size; omega
  have e1 := extend_refused s h r blk hb (by simp [hw])
  have e2 := fresh_granted ⟨h.blocks, h.answers.tail,
    h.trace ++ [Call.VirtualAlloc (some ⟨r, s.capacity⟩) s.capacity none]⟩ (s.capacity * 2)
    hw2 (by omega) hroom
  have e3 := memcpy_into_fresh h.blocks h.answers.tail.tail
    (h.trace ++ [Call.VirtualAlloc (some ⟨r, s.capacity⟩) s.capacity none]
      ++ [Call.VirtualAlloc none (s.capacity * 2) (some ⟨h.blocks.length, 0⟩)])
    r (s.capacity * 2) blk hb hl (by omega) (by omega)
  have e5 : s.capacity * 2 - s.capacity = s.capacity := by omega
  rw [hsz, e5] at e3
  have e4 : (h.blocks ++ [(⟨blk.bytes ++ List.replicate s.capacity 0, true⟩ : Block)])[r]?
      = some blk := by
    rw [List.getElem?_append_left hr]; exact hb
  simp only [List.append_assoc, List.singleton_append] at e3
  simp only [String.push, hd, hfull, Ptr.add, Option.map, Nat.zero_add, e1, hmod, e2, e3,
    Heap.VirtualFree, e4, String.push_grow, Heap.store, List.append_assoc, List.singleton_append]
  simp [hr, hsz, hpos]


/-- Full buffer, both requests refused: the copy into the null result is
invalid; nothing has been written or released at that point. -/
theorem push_full_refused (s : String) (ch : Nat) (h : Heap) (r : Nat) (blk : Block)
    (hd : s.data = some ⟨r, 0⟩) (hb : h.blocks[r]? = some blk) (hl : blk.live = true)
    (hsz : blk.bytes.length = s.capacity) (hfull : s.len = s.capacity) (hpos : 0 < s.capacity)
    (hno : ¬ (h.willing = true ∧ s.capacity + s.capacity < user_space))
    (hno2 : ¬ (h.answers.tail.headD false = true ∧ 0 < s.capacity * 2 % u64_size
      ∧ s.capacity * 2 % u64_size < user_space)) :
    s.push ch h = Outcome.fault s
      ⟨h.blocks, h.answers.tail.tail,
        h.trace ++ [Call.VirtualAlloc (some ⟨r, s.capacity⟩) s.capacity none,
          Call.VirtualAlloc none (s.capacity * 2 % u64_size) none]⟩ := by
  have e1 := extend_refused s h r blk hb hno
  have e2 := fresh_refused ⟨h.blocks, h.answers.tail,
    h.trace ++ [Call.VirtualAlloc (some ⟨r, s.capacity⟩) s.capacity none]⟩
    (s.capacity * 2 % u64_size) hno2
  have hne : s.capacity ≠ 0 := by omega
  have hnil : blk.bytes ≠ [] := by
    intro hc; rw [hc] at hsz; simp at hsz; omega
  simp only [String.push, hd, hfull, Ptr.add, Option.map, Nat.zero_add, e1, e2,
    List.append_assoc, List.singleton_append]
  simp [Heap.memcpy, hne, Heap.load, hb, hl, hsz, Heap.storeBytes, hnil]

/-! ## What the constructor from a character sequence does -/

theorem scan_terminated (bs rest : List Nat) (hnz : ∀ c ∈ bs, c ≠ 0) (k : Nat) :
    scan (bs ++ 0 :: rest) k = some ((k + bs.length + 1) % u64_size) := by
  induction bs generalizing k with
  | nil => simp [scan]
  | cons c bs ih =>
    have hc : c ≠ 0 := hnz c (List.mem_cons_self _ _)
    have ih2 := ih (fun d hd => hnz d (List.mem_cons_of_mem _ hd)) ((k + 1) % u64_size)
    rw [List.cons_append, scan, if_pos hc, ih2, List.length_cons]
    congr 1
    unfold u64_size
    omega

theorem scan_length (bs rest : List Nat) (hnz : ∀ c ∈ bs, c ≠ 0) (hN : bs.length < u64_size) :
    ∃ slen, scan (bs ++ 0 :: rest) 0 = some slen
      ∧ (if slen = 0 then u64_size - 1 else slen - 1) = bs.length := by
  refine ⟨_, scan_terminated bs rest hnz 0, ?_⟩
  unfold u64_size at *
  split <;> omega

/-- Non-empty source, region granted. -/
theorem ctor_s_granted (bs rest : List Nat) (h : Heap) (hnz : ∀ c ∈ bs, c ≠ 0)
    (hpos : 0 < bs.length) (hN : bs.length < user_space) (hw : h.willing = true) :
    String.ctor_s (some (bs ++ 0 :: rest)) h = Outcome.ret
      ⟨some ⟨h.blocks.length, 0⟩, bs.length, bs.length⟩
      ⟨h.blocks ++ [⟨bs, true⟩], h.answers.tail,
        h.trace ++ [Call.VirtualAlloc none bs.length (some ⟨h.blocks.length, 0⟩)]⟩ := by
  obtain ⟨slen, hscan, hlen⟩ := scan_length bs rest hnz
    (by unfold user_space at hN; unfold u64_size; omega)
  have hnil : bs ≠ [] := by
    intro hc; rw [hc] at hpos; simp at hpos
  simp only [String.ctor_s, hscan, hlen, fresh_granted h bs.length hw hpos hN]
  simp [Heap.CopyMemory, Heap.storeBytes, hnil]

/-- Non-empty source, region refused: the null result is stored in `data`,
`len` and `capacity` are set, and the copy into `data` is invalid. -/
theorem ctor_s_refused (bs rest : List Nat) (h : Heap) (hnz : ∀ c ∈ bs, c ≠ 0)
    (hpos : 0 < bs.length) (hN : bs.length < u64_size)
    (hno : ¬ (h.willing = true ∧ 0 < bs.length ∧ bs.length < user_space)) :
    String.ctor_s (some (bs ++ 0 :: rest)) h = Outcome.fault
      ⟨none, bs.length, bs.length⟩
      ⟨h.blocks, h.answers.tail, h.trace ++ [Call.VirtualAlloc none bs.length none]⟩ := by
  obtain ⟨slen, hscan, hlen⟩ := scan_length bs rest hnz hN
  have hnil : bs ≠ [] := by
    intro hc; rw [hc] at hpos; simp at hpos
  simp only [String.ctor_s, hscan, hlen, fresh_refused h bs.length hno]
  simp [Heap.CopyMemory, Heap.storeBytes, hnil]

/-- Source that starts with the terminator: a request for zero bytes is made
and rejected, nothing is copied. -/
theorem ctor_s_empty (rest : List Nat) (h : Heap) :
    String.ctor_s (some (0 :: rest)) h = Outcome.ret ⟨none, 0, 0⟩
      ⟨h.blocks, h.answers.tail, h.trace ++ [Call.VirtualAlloc none 0 none]⟩ := by
  have hno : ¬ (h.willing = true ∧ 0 < 0 ∧ 0 < user_space) := by simp
  have e := fresh_refused h 0 hno
  simp [String.ctor_s, scan, u64_size, e, Heap.CopyMemory, Heap.storeBytes]

/-! ## The branches of `push` on a buffer that owns its storage -/

theorem fresh_result (h : Heap) (n : Nat) :
    (h.VirtualAlloc none n).1 ≠ none ↔ (h.willing = true ∧ 0 < n ∧ n < user_space) := by
  by_cases hc : h.willing = true ∧ 0 < n ∧ n < user_space
  · rw [fresh_granted h n hc.1 hc.2.1 hc.2.2]; simp [hc]
  · rw [fresh_refused h n hc]; simp [hc]

theorem extend_result (s : String) (h : Heap) (r : Nat) (blk : Block)
    (hd : s.data = some ⟨r, 0⟩) (hb : h.blocks[r]? = some blk) (hl : blk.live = true)
    (hsz : blk.bytes.length = s.capacity) (hpos : 0 < s.capacity) :
    (s.extendRequest h).1 ≠ none ↔ (h.willing = true ∧ s.capacity + s.capacity < user_space) := by
  simp only [String.extendRequest, hd, Ptr.add, Option.map, Nat.zero_add]
  by_cases hc : h.willing = true ∧ s.capacity + s.capacity < user_space
  · simp [Heap.VirtualAlloc, hb, hl, hsz, hpos, hc.1, hc.2]
  · rw [extend_refused s h r blk hb hc]; simp [hc]

theorem fresh_after_refused (s : String) (h : Heap) (r : Nat) (blk : Block)
    (hd : s.data = some ⟨r, 0⟩) (hb : h.blocks[r]? = some blk)
    (hno : ¬ (h.willing = true ∧ s.capacity + s.capacity < user_space)) :
    (s.freshRequest h).1 ≠ none ↔ (h.answers.tail.headD false = true
      ∧ 0 < s.capacity * 2 % u64_size ∧ s.capacity * 2 % u64_size < user_space) := by
  simp only [String.freshRequest, String.extendRequest, hd, Ptr.add, Option.map, Nat.zero_add]
  rw [extend_refused s h r blk hb hno, fresh_result]
  rfl

/-- Every call of `push` on a buffer that owns its storage takes one of six
courses, decided by the fields and by the results of its requests. -/
theorem push_cases (s : String) (ch : Nat) (h : Heap) (hv : s.Valid h) :
    (s.data = none ∧ (h.VirtualAlloc none 1).1 ≠ none ∧
      s.push ch h = Outcome.ret ⟨some ⟨h.blocks.length, 0⟩, 1, 1⟩
        ⟨h.blocks ++ [⟨[ch], true⟩], h.answers.tail,
          h.trace ++ [Call.VirtualAlloc none 1 (some ⟨h.blocks.length, 0⟩)]⟩)
    ∨ (s.data = none ∧ (h.VirtualAlloc none 1).1 = none ∧
      s.push ch h = Outcome.fault ⟨none, s.len, 1⟩
        ⟨h.blocks, h.answers.tail, h.trace ++ [Call.VirtualAlloc none 1 none]⟩)
    ∨ (∃ r blk, s.data = some ⟨r, 0⟩ ∧ h.blocks[r]? = some blk ∧ blk.live = true
        ∧ blk.bytes.length = s.capacity ∧ 0 < s.capacity ∧ s.capacity < user_space ∧
      ((s.len < s.capacity ∧
        s.push ch h = Outcome.ret ⟨s.data, s.len + 1, s.capacity⟩
          ⟨h.blocks.set r ⟨blk.bytes.set s.len ch, true⟩, h.answers, h.trace⟩)
      ∨ (s.len = s.capacity ∧ (s.extendRequest h).1 ≠ none ∧ 2 * s.capacity < user_space ∧
        s.push ch h = Outcome.ret ⟨s.data, s.len + 1, 2 * s.capacity⟩
          ⟨h.blocks.set r ⟨(blk.bytes ++ List.replicate s.capacity 0).set s.len ch, true⟩,
            h.answers.tail,
            h.trace ++ [Call.VirtualAlloc (some ⟨r, s.capacity⟩) s.capacity
              (some ⟨r, s.capacity⟩)]⟩)
      ∨ (s.len = s.capacity ∧ (s.extendRequest h).1 = none ∧ (s.freshRequest h).1 ≠ none
          ∧ 2 * s.capacity < user_space ∧
        s.push ch h = Outcome.ret ⟨some ⟨h.blocks.length, 0⟩, s.len + 1, 2 * s.capacity⟩
          ⟨h.blocks.set r ⟨blk.bytes, false⟩
              ++ [⟨(blk.bytes ++ List.replicate s.capacity 0).set s.len ch, true⟩],
            h.answers.tail.tail,
            h.trace ++ [Call.VirtualAlloc (some ⟨r, s.capacity⟩) s.capacity none,
              Call.VirtualAlloc none (2 * s.capacity) (some ⟨h.blocks.length, 0⟩),
              Call.VirtualFree (some ⟨r, 0⟩)]⟩)
      ∨ (s.len = s.capacity ∧ (s.extendRequest h).1 = none ∧ (s.freshRequest h).1 = none ∧
        s.push ch h = Outcome.fault s
          ⟨h.blocks, h.answers.tail.tail,
            h.trace ++ [Call.VirtualAlloc (some ⟨r, s.capacity⟩) s.capacity none,
              Call.VirtualAlloc none (2 * s.capacity) none]⟩))) := by
  cases hd : s.data with
  | none =>
    by_cases hw : h.willing = true
    · left
      exact ⟨rfl, (fresh_result h 1).2 ⟨hw, by decide, by decide⟩, push_empty_granted s ch h hd hw⟩
    · right; left
      have hw2 : h.willing = false := by simpa using hw
      refine ⟨rfl, ?_, push_empty_refused s ch h hd hw2⟩
      by_contra hc
      exact hw ((fresh_result h 1).1 hc).1
  | some p =>
    obtain ⟨hoff, hpos, hle, hus, blk, hb, hl, hsz⟩ := valid_some hd hv
    obtain ⟨r, o⟩ := p
    simp only at hoff hb
    subst hoff
    right; right
    refine ⟨r, blk, rfl, hb, hl, hsz, hpos, hus, ?_⟩
    have hM1 : (s.len + 1) % u64_size = s.len + 1 := by
      unfold user_space at hus; unfold u64_size; omega
    have hM2 : s.capacity * 2 % u64_size = 2 * s.capacity := by
      unfold user_space at hus; unfold u64_size; omega
    by_cases hfull : s.len = s.capacity
    · right
      by_cases hext : h.willing = true ∧ s.capacity + s.capacity < user_space
      · left
        have e := push_full_extended s ch h r blk hd hb hl hsz hfull hpos hext.1 hext.2
        rw [hM1, hM2, hd] at e
        exact ⟨hfull, (extend_result s h r blk hd hb hl hsz hpos).2 hext, by omega, e⟩
      · right
        have hnone : (s.extendRequest h).1 = none := by
          by_contra hc
          exact hext ((extend_result s h r blk hd hb hl hsz hpos).1 hc)
        by_cases hfr : h.answers.tail.headD false = true
            ∧ 0 < s.capacity * 2 % u64_size ∧ s.capacity * 2 % u64_size < user_space
        · left
          have hroom : s.capacity * 2 < user_space := by rw [hM2] at hfr; omega
          have hw : h.willing = false := by
            cases hwc : h.willing with
            | false => rfl
            | true => exact absurd ⟨hwc, by omega⟩ hext
          have e := push_full_moved s ch h r blk hd hb hl hsz hfull hpos hw hfr.1 hroom
          rw [hM1, hM2] at e
          rw [Nat.mul_comm s.capacity 2] at e
          exact ⟨hfull, hnone, (fresh_after_refused s h r blk hd hb hext).2 hfr,
            by omega, e⟩
        · right
          have e := push_full_refused s ch h r blk hd hb hl hsz hfull hpos hext hfr
          rw [hM2] at e
          refine ⟨hfull, hnone, ?_, e⟩
          by_contra hc
          exact hfr ((fresh_after_refused s h r blk hd hb hext).1 hc)
    · left
      have hlt : s.len < s.capacity := by omega
      have e := push_spare s ch h ⟨r, 0⟩ blk hd hb hl hfull (by simp; omega)
      rw [hM1, hd] at e
      simp only [Nat.zero_add] at e
      exact ⟨hlt, e⟩

/-! ## Consequences for a `push` that returns -/

theorem take_set_succ (l : List Nat) (n v : Nat) (hn : n < l.length) :
    (l.set n v).take (n + 1) = l.take n ++ [v] := by
  induction l generalizing n with
  | nil => simp at hn
  | cons a l ih =>
    cases n with
    | zero => simp
    | succ k =>
      simp only [List.length_cons] at hn
      simp [ih k (by omega)]

theorem valid_dataModel {s : String} {h : Heap} (hv : s.Valid h) : s.DataModel h := by
  cases hd : s.data with
  | none =>
    obtain ⟨h1, h2⟩ := valid_none hd hv
    exact ⟨by omega, fun _ => ⟨hd, h1⟩, fun hc => by omega⟩
  | some p =>
    obtain ⟨hoff, hpos, hle, hus, blk, hb, hl, hsz⟩ := valid_some hd hv
    obtain ⟨r, o⟩ := p
    simp only at hoff hb
    subst hoff
    refine ⟨hle, fun hc => by omega, fun _ => ⟨r, s.capacity, hd, ?_, le_refl _⟩⟩
    rw [← hsz]
    exact liveSize_of_block hb hl

/-- A `push` that returns, from a buffer that owns its storage: the buffer
still owns its storage, `len` went up by one, the content has the byte
appended, and `capacity` is 1 (from empty), unchanged or doubled. -/
theorem push_ret_facts (s s1 : String) (ch : Nat) (h h1 : Heap) (hv : s.Valid h)
    (hr : s.push ch h = Outcome.ret s1 h1) :
    s1.Valid h1 ∧ s1.len = s.len + 1 ∧ s1.content h1 = s.content h ++ [ch]
      ∧ ((s.data = none ∧ s1.capacity = 1)
        ∨ (s.data ≠ none ∧ s.len < s.capacity ∧ s1.capacity = s.capacity ∧ s1.data = s.data
            ∧ h1.trace = h.trace)
        ∨ (s.data ≠ none ∧ s.len = s.capacity ∧ s1.capacity = 2 * s.capacity)) := by
  rcases push_cases s ch h hv with ⟨hd, _, e⟩ | ⟨_, _, e⟩ | ⟨r, blk, hd, hb, hl, hsz, hpos, hus, hc⟩
  · rw [e] at hr
    injection hr with hs hh
    subst hs; subst hh
    obtain ⟨hlen, _⟩ := valid_none hd hv
    refine ⟨?_, by simp [hlen], ?_, Or.inl ⟨hd, rfl⟩⟩
    · simp [String.Valid, user_space, Heap.liveSize]
    · simp [String.content, hd]
  · rw [e] at hr; cases hr
  · have hrl := block_index_lt hb
    have hcont : s.content h = blk.bytes.take s.len := by
      simp [String.content, hd, hb]
    have hne : s.data ≠ none := by rw [hd]; simp
    obtain ⟨hle, _⟩ : s.len ≤ s.capacity ∧ True := by
      obtain ⟨_, _, hle, _⟩ := valid_some hd hv
      exact ⟨hle, trivial⟩
    rcases hc with ⟨hlt, e⟩ | ⟨hfull, _, hroom, e⟩ | ⟨hfull, _, _, hroom, e⟩ | ⟨_, _, _, e⟩
    · rw [e] at hr
      injection hr with hs hh
      subst hs; subst hh
      refine ⟨?_, rfl, ?_, Or.inr (Or.inl ⟨hne, hlt, rfl, rfl, rfl⟩)⟩
      · simp [String.Valid, hd, Heap.liveSize, hrl, hsz, hpos, hus]
        omega
      · rw [hcont]
        simp [String.content, hd, hrl]
        exact take_set_succ blk.bytes s.len ch (by omega)
    · rw [e] at hr
      injection hr with hs hh
      subst hs; subst hh
      refine ⟨?_, rfl, ?_, Or.inr (Or.inr ⟨hne, hfull, rfl⟩)⟩
      · simp [String.Valid, hd, Heap.liveSize, hrl, hsz, hpos, hroom]
        omega
      · rw [hcont]
        simp [String.content, hd, hrl]
        rw [take_set_succ _ s.len ch (by simp; omega)]
        rw [List.take_append_of_le_length (by omega)]
    · rw [e] at hr
      injection hr with hs hh
      subst hs; subst hh
      refine ⟨?_, rfl, ?_, Or.inr (Or.inr ⟨hne, hfull, rfl⟩)⟩
      · simp [String.Valid, Heap.liveSize, hsz, hpos, hroom]
        omega
      · rw [hcont]
        simp [String.content]
        rw [take_set_succ _ s.len ch (by simp; omega)]
        rw [List.take_append_of_le_length (by omega)]
    · rw [e] at hr; cases hr

/-- A `push` returns when the host grants what it asks for. -/
theorem push_returns (s : String) (ch : Nat) (h : Heap) (hv : s.Valid h) (hs : s.Supplied h) :
    ∃ s1 h1, s.push ch h = Outcome.ret s1 h1 := by
  unfold String.Supplied at hs
  rcases push_cases s ch h hv with ⟨_, _, e⟩ | ⟨hd, hno, _⟩ | ⟨r, blk, hd, _, _, _, _, _, hc⟩
  · exact ⟨_, _, e⟩
  · rw [if_pos hd] at hs
    exact absurd hno hs
  · have hne : s.data ≠ none := by rw [hd]; simp
    rcases hc with ⟨_, e⟩ | ⟨_, _, _, e⟩ | ⟨_, _, _, _, e⟩ | ⟨hfull, hn1, hn2, _⟩
    · exact ⟨_, _, e⟩
    · exact ⟨_, _, e⟩
    · exact ⟨_, _, e⟩
    · rw [if_neg hne, if_pos hfull] at hs
      rcases hs with hs | hs
      · exact absurd hn1 hs
      · exact absurd hn2 hs

/-! ## The constructors establish ownership -/

theorem scan_nil_none (k : Nat) : scan [] k = none := rfl

theorem ctor_s_unfold (cs : List Nat) (h : Heap) (slen : Nat) (hscan : scan cs 0 = some slen) :
    String.ctor_s (some cs) h =
      match (h.VirtualAlloc none (if slen = 0 then u64_size - 1 else slen - 1)).2.CopyMemory
          (h.VirtualAlloc none (if slen = 0 then u64_size - 1 else slen - 1)).1 cs
          (if slen = 0 then u64_size - 1 else slen - 1) with
      | some h2 => Outcome.ret ⟨(h.VirtualAlloc none (if slen = 0 then u64_size - 1 else slen - 1)).1,
          (if slen = 0 then u64_size - 1 else slen - 1),
          (if slen = 0 then u64_size - 1 else slen - 1)⟩ h2
      | none => Outcome.fault ⟨(h.VirtualAlloc none (if slen = 0 then u64_size - 1 else slen - 1)).1,
          (if slen = 0 then u64_size - 1 else slen - 1),
          (if slen = 0 then u64_size - 1 else slen - 1)⟩
          (h.VirtualAlloc none (if slen = 0 then u64_size - 1 else slen - 1)).2 := by
  simp only [String.ctor_s, hscan]

/-- Whatever the source and the host, a buffer returned by the constructor
from a character sequence owns its storage. -/
theorem ctor_s_valid (src : Option (List Nat)) (h : Heap) (s1 : String) (h1 : Heap)
    (hr : String.ctor_s src h = Outcome.ret s1 h1) : s1.Valid h1 := by
  cases src with
  | none =>
    simp only [String.ctor_s] at hr
    injection hr with hs hh
    subst hs
    simp [String.Valid]
  | some cs =>
    cases hscan : scan cs 0 with
    | none => simp [String.ctor_s, hscan] at hr
    | some slen =>
      rw [ctor_s_unfold cs h slen hscan] at hr
      generalize (if slen = 0 then u64_size - 1 else slen - 1) = n at hr
      have hcs : cs ≠ [] := by
        intro hc; rw [hc, scan_nil_none] at hscan; cases hscan
      by_cases hg : h.willing = true ∧ 0 < n ∧ n < user_space
      · rw [fresh_granted h n hg.1 hg.2.1 hg.2.2] at hr
        by_cases hle : n ≤ cs.length
        · have htk : cs.take n ≠ [] := by
            intro hc
            have := congrArg List.length hc
            simp at this
            rcases this with h0 | h0
            · omega
            · exact absurd h0 hcs
          simp [Heap.CopyMemory, hle, Heap.storeBytes, htk] at hr
          obtain ⟨hs, hh⟩ := hr
          subst hs; subst hh
          simp [String.Valid, Heap.liveSize, hg.2.1, hg.2.2, hle]
        · simp [Heap.CopyMemory, hle] at hr
      · rw [fresh_refused h n hg] at hr
        by_cases hle : n ≤ cs.length
        · by_cases htk : cs.take n = []
          · have hn0 : n = 0 := by
              have := congrArg List.length htk
              simp at this
              rcases this with h0 | h0
              · exact h0
              · exact absurd h0 hcs
            simp [Heap.CopyMemory, hle, Heap.storeBytes, htk] at hr
            obtain ⟨hs, hh⟩ := hr
            subst hs
            simp [String.Valid, hn0]
          · simp [Heap.CopyMemory, hle, Heap.storeBytes, htk] at hr
        · simp [Heap.CopyMemory, hle] at hr

theorem constructed_valid {s : String} {h : Heap} (hc : s.Constructed h) : s.Valid h := by
  rcases hc with ⟨h0, e⟩ | ⟨src, h0, e⟩
  · simp only [String.ctor] at e
    injection e with hs hh
    subst hs
    simp [String.Valid]
  · exact ctor_s_valid src h0 s h e

theorem reachable_valid {s : String} {h : Heap} (hr : Reachable s h) : s.Valid h := by
  induction hr with
  | made hc => exact constructed_valid hc
  | pushed _ hp ih => exact (push_ret_facts _ _ _ _ _ ih hp).1

/-- A run of `push` calls that returns, from a buffer that owns its storage:
the buffer still owns its storage, `len` went up by the number of calls and
the content has the bytes appended. -/
theorem pushAll_ret_facts (chs : List Nat) (s0 s : String) (h0 h : Heap) (hv : s0.Valid h0)
    (hrun : s0.pushAll h0 chs = Outcome.ret s h) :
    s.Valid h ∧ s.len = s0.len + chs.length ∧ s.content h = s0.content h0 ++ chs := by
  induction chs generalizing s0 h0 with
  | nil =>
    simp only [String.pushAll] at hrun
    injection hrun with hs hh
    subst hs; subst hh
    simp [hv]
  | cons ch rest ih =>
    simp only [String.pushAll] at hrun
    cases hp : s0.push ch h0 with
    | ret s1 h1 =>
      rw [hp] at hrun
      obtain ⟨hv1, hl1, hc1, _⟩ := push_ret_facts s0 s1 ch h0 h1 hv hp
      obtain ⟨hv2, hl2, hc2⟩ := ih s1 h1 hv1 hrun
      refine ⟨hv2, ?_, ?_⟩
      · rw [hl2, hl1, List.length_cons]; omega
      · rw [hc2, hc1]; simp
    | raised s1 h1 => rw [hp] at hrun; cases hrun
    | fault s1 h1 => rw [hp] at hrun; cases hrun

/-! ## Construction from a character sequence -/

/-- C1: for every source of `N` bytes before its first NUL, when the host
supplies the requested region (nothing needs supplying for `N = 0`), the
constructor returns a buffer with `len = capacity = N` whose content is the
source bytes in order, and the one host call it makes is a request for
exactly `N` bytes. -/
theorem C1_ctor_s_copies_source (bs rest : List Nat) (h : Heap) (hnz : ∀ c ∈ bs, c ≠ 0)
    (hsup : 0 < bs.length → (h.VirtualAlloc none bs.length).1 ≠ none) :
    ∃ p h1, String.ctor_s (some (bs ++ 0 :: rest)) h = Outcome.ret ⟨p, bs.length, bs.length⟩ h1
      ∧ String.content ⟨p, bs.length, bs.length⟩ h1 = bs
      ∧ h1.trace = h.trace ++ [Call.VirtualAlloc none bs.length p] := by
  by_cases hpos : 0 < bs.length
  · obtain ⟨hw, _, hN⟩ := (fresh_result h bs.length).1 (hsup hpos)
    refine ⟨_, _, ctor_s_granted bs rest h hnz hpos hN hw, ?_, rfl⟩
    simp [String.content]
  · have hnil : bs = [] := List.length_eq_zero.1 (by omega)
    subst hnil
    exact ⟨_, _, ctor_s_empty rest h, rfl, rfl⟩

theorem C1_witness :
    ∃ p h1, String.ctor_s (some ([97, 98] ++ 0 :: [7])) ⟨[], [true], []⟩
        = Outcome.ret ⟨p, 2, 2⟩ h1
      ∧ String.content ⟨p, 2, 2⟩ h1 = [97, 98]
      ∧ h1.trace = [] ++ [Call.VirtualAlloc none 2 p] :=
  C1_ctor_s_copies_source [97, 98] [7] ⟨[], [true], []⟩ (by decide) (by decide)

/-! ## Length and capacity across `push` -/

/-- C2: from a buffer returned by either constructor, after any run of
`push` calls `len` is the initial length plus the number of calls and
`len ≤ capacity`; each further `push` returns when the host grants what it
asks for, and when it returns `len` is exactly one greater than before and
`len ≤ capacity`. -/
theorem C2_push_len_increments (s0 : String) (h0 : Heap) (hc : s0.Constructed h0)
    (chs : List Nat) (s : String) (h : Heap) (hrun : s0.pushAll h0 chs = Outcome.ret s h) :
    s.len = s0.len + chs.length ∧ s.len ≤ s.capacity
      ∧ ∀ ch, (s.Supplied h → ∃ s1 h1, s.push ch h = Outcome.ret s1 h1)
          ∧ ∀ s1 h1, s.push ch h = Outcome.ret s1 h1 →
              s1.len = s.len + 1 ∧ s1.len ≤ s1.capacity := by
  obtain ⟨hv, hlen, _⟩ := pushAll_ret_facts chs s0 s h0 h (constructed_valid hc) hrun
  refine ⟨hlen, (valid_dataModel hv).1, fun ch => ⟨push_returns s ch h hv, ?_⟩⟩
  intro s1 h1 hp
  obtain ⟨hv1, hl1, _⟩ := push_ret_facts s s1 ch h h1 hv hp
  exact ⟨hl1, (valid_dataModel hv1).1⟩

theorem C2_witness :
    sample_ab.pushAll sample_ab_heap [99, 100, 101] = Outcome.ret sample_abcde sample_abcde_heap
      ∧ sample_abcde.len = sample_ab.len + 3 ∧ sample_abcde.len ≤ sample_abcde.capacity
      ∧ (6 : Nat) = sample_abcde.len + 1 ∧ (6 : Nat) ≤ 8 :=
  have hrun : sample_ab.pushAll sample_ab_heap [99, 100, 101]
      = Outcome.ret sample_abcde sample_abcde_heap := by decide
  have hc : sample_ab.Constructed sample_ab_heap :=
    Or.inr ⟨some [97, 98, 0], sample_host, by decide⟩
  have hall := C2_push_len_increments sample_ab sample_ab_heap hc [99, 100, 101]
    sample_abcde sample_abcde_heap hrun
  ⟨hrun, hall.1, hall.2.1,
    (hall.2.2 102).2 ⟨some ⟨1, 0⟩, 6, 8⟩
      ⟨[⟨[97, 98], false⟩, ⟨[97, 98, 99, 100, 101, 102, 0, 0], true⟩], [],
        sample_abcde_heap.trace⟩ (by decide)⟩

/-- C3: on a buffer that owns its storage, a `push` with `0 < len < capacity`
returns with `capacity` and `data` unchanged and makes no host call; a
`push` with `0 < len = capacity` returns when the host grants one of its two
requests, and whenever it returns `capacity` is exactly twice what it was;
on a non-empty buffer `capacity` never changes in any other way. -/
theorem C3_capacity_change (s : String) (ch : Nat) (h : Heap) (hv : s.Valid h) :
    (0 < s.len → s.len < s.capacity →
      ∃ h1, s.push ch h = Outcome.ret ⟨s.data, s.len + 1, s.capacity⟩ h1
        ∧ h1.trace = h.trace ∧ h1.answers = h.answers)
    ∧ (0 < s.len → s.len = s.capacity →
        (s.Supplied h → ∃ s1 h1, s.push ch h = Outcome.ret s1 h1)
        ∧ ∀ s1 h1, s.push ch h = Outcome.ret s1 h1 → s1.capacity = 2 * s.capacity)
    ∧ (s.data ≠ none → ∀ s1 h1, s.push ch h = Outcome.ret s1 h1 →
        (s.len < s.capacity ∧ s1.capacity = s.capacity)
          ∨ (s.len = s.capacity ∧ s1.capacity = 2 * s.capacity)) := by
  refine ⟨?_, ?_, ?_⟩
  · intro _ hlt
    rcases push_cases s ch h hv with ⟨hd, _, _⟩ | ⟨hd, _, _⟩ | ⟨r, blk, _, _, _, _, _, _, hc⟩
    · obtain ⟨_, h2⟩ := valid_none hd hv
      omega
    · obtain ⟨_, h2⟩ := valid_none hd hv
      omega
    · rcases hc with ⟨_, e⟩ | ⟨hf, _⟩ | ⟨hf, _⟩ | ⟨hf, _⟩
      · exact ⟨_, e, rfl, rfl⟩
      · omega
      · omega
      · omega
  · intro _ hfull
    refine ⟨push_returns s ch h hv, ?_⟩
    intro s1 h1 hp
    obtain ⟨_, _, _, hcap⟩ := push_ret_facts s s1 ch h h1 hv hp
    rcases hcap with ⟨hd, _⟩ | ⟨_, hlt, _⟩ | ⟨_, _, h2⟩
    · obtain ⟨h0, _⟩ := valid_none hd hv
      omega
    · omega
    · exact h2
  · intro hne s1 h1 hp
    obtain ⟨_, _, _, hcap⟩ := push_ret_facts s s1 ch h h1 hv hp
    rcases hcap with ⟨hd, _⟩ | ⟨_, hlt, h2, _⟩ | ⟨_, hf, h2⟩
    · exact absurd hd hne
    · exact Or.inl ⟨hlt, h2⟩
    · exact Or.inr ⟨hf, h2⟩

theorem C3_witness :
    sample_abcde.Valid sample_abcde_heap
      ∧ ∃ h1, sample_abcde.push 102 sample_abcde_heap = Outcome.ret ⟨sample_abcde.data, 6, 8⟩ h1
        ∧ h1.trace = sample_abcde_heap.trace ∧ h1.answers = sample_abcde_heap.answers :=
  have hv : sample_abcde.Valid sample_abcde_heap := by
    simp [String.Valid, sample_abcde, sample_abcde_heap, Heap.liveSize, user_space]
  ⟨hv, (C3_capacity_change sample_abcde 102 sample_abcde_heap hv).1 (by decide) (by decide)⟩

/-! ## Content across `push` -/

/-- C4: on a buffer that owns its storage, `push(b)` returns when the host
grants what it asks for, and whenever it returns (from the empty, the
spare-room or the full branch, extended in place or moved by copy) the
content is the old content followed by `b`. -/
theorem C4_push_appends_byte (s : String) (ch : Nat) (h : Heap) (hv : s.Valid h) :
    (s.Supplied h → ∃ s1 h1, s.push ch h = Outcome.ret s1 h1)
      ∧ ∀ s1 h1, s.push ch h = Outcome.ret s1 h1 → s1.content h1 = s.content h ++ [ch] := by
  refine ⟨push_returns s ch h hv, ?_⟩
  intro s1 h1 hp
  exact (push_ret_facts s s1 ch h h1 hv hp).2.2.1

theorem C4_witness :
    sample_ab.Valid sample_ab_heap
      ∧ String.content ⟨some ⟨1, 0⟩, 3, 4⟩
          ⟨[⟨[97, 98], false⟩, ⟨[97, 98, 99, 0], true⟩], [true],
            sample_ab_heap.trace ++ [Call.VirtualAlloc (some ⟨0, 2⟩) 2 none,
              Call.VirtualAlloc none 4 (some ⟨1, 0⟩), Call.VirtualFree (some ⟨0, 0⟩)]⟩
        = sample_ab.content sample_ab_heap ++ [99] :=
  have hv : sample_ab.Valid sample_ab_heap := by
    simp [String.Valid, sample_ab, sample_ab_heap, Heap.liveSize, user_space]
  ⟨hv, (C4_push_appends_byte sample_ab 99 sample_ab_heap hv).2 _ _ (by decide)⟩

/-! ## Refused requests -/

/-- C5 (as stated, refuted): on the full one-byte buffer with both requests
refused, `push` reports nothing to its caller and does not return; it stops
at the copy into the null result. -/
theorem C5_counterexample :
    sample_full.Valid sample_full_heap
      ∧ (sample_full.extendRequest sample_full_heap).1 = none
      ∧ (sample_full.freshRequest sample_full_heap).1 = none
      ∧ sample_full.push 98 sample_full_heap = Outcome.fault sample_full
          ⟨[⟨[97], true⟩], [],
            [Call.VirtualAlloc (some ⟨0, 1⟩) 1 none, Call.VirtualAlloc none 2 none]⟩
      ∧ ¬ ∃ h1, sample_full.push 98 sample_full_heap = Outcome.raised sample_full h1 := by
  have hp : sample_full.push 98 sample_full_heap = Outcome.fault sample_full
      ⟨[⟨[97], true⟩], [],
        [Call.VirtualAlloc (some ⟨0, 1⟩) 1 none, Call.VirtualAlloc none 2 none]⟩ := by decide
  refine ⟨?_, by decide, by decide, hp, ?_⟩
  · simp [String.Valid, sample_full, sample_full_heap, Heap.liveSize, user_space]
  · rintro ⟨h1, e⟩
    rw [hp] at e
    cases e

/-- C5 (amended): on a full buffer that owns its storage, when both the
in-place request and the request for `2 × capacity` bytes are refused,
`push` reports no failure and does not return: it stops with `data`, `len`,
`capacity` and every region as before the call, having made exactly those
two requests, in that order, and no release. -/
theorem C5_push_both_refused (s : String) (ch : Nat) (h : Heap) (hv : s.Valid h)
    (hpos : 0 < s.len) (hfull : s.len = s.capacity)
    (hext : (s.extendRequest h).1 = none) (hfresh : (s.freshRequest h).1 = none) :
    ∃ hf, s.push ch h = Outcome.fault s hf ∧ hf.blocks = h.blocks
      ∧ hf.trace = h.trace ++ [Call.VirtualAlloc (Ptr.add s.data s.capacity) s.capacity none,
          Call.VirtualAlloc none (2 * s.capacity) none] := by
  rcases push_cases s ch h hv with ⟨hd, _, _⟩ | ⟨hd, _, _⟩ | ⟨r, blk, hd, _, _, _, _, _, hc⟩
  · obtain ⟨h0, _⟩ := valid_none hd hv
    omega
  · obtain ⟨h0, _⟩ := valid_none hd hv
    omega
  · rcases hc with ⟨hlt, _⟩ | ⟨_, hne, _⟩ | ⟨_, _, hne, _⟩ | ⟨_, _, _, e⟩
    · omega
    · exact absurd hext hne
    · exact absurd hfresh hne
    · refine ⟨_, e, rfl, ?_⟩
      simp [hd, Ptr.add]

theorem C5_witness :
    ∃ hf, sample_full.push 98 sample_full_heap = Outcome.fault sample_full hf
      ∧ hf.blocks = sample_full_heap.blocks
      ∧ hf.trace = sample_full_heap.trace
          ++ [Call.VirtualAlloc (Ptr.add sample_full.data sample_full.capacity)
                sample_full.capacity none,
              Call.VirtualAlloc none (2 * sample_full.capacity) none] :=
  C5_push_both_refused sample_full 98 sample_full_heap
    (by simp [String.Valid, sample_full, sample_full_heap, Heap.liveSize, user_space])
    (by decide) (by decide) (by decide) (by decide)

/-- C6 (as stated, refuted): from the source `"a"` on a host that refuses the
request, the constructor reports nothing and does not return; it stops at
the copy through null `data`, with `len` and `capacity` already set to 1. -/
theorem C6_counterexample :
    (exhausted_host.VirtualAlloc none 1).1 = none
      ∧ String.ctor_s (some [97, 0]) exhausted_host = Outcome.fault ⟨none, 1, 1⟩
          ⟨[], [], [Call.VirtualAlloc none 1 none]⟩
      ∧ ¬ ∃ s1 h1, String.ctor_s (some [97, 0]) exhausted_host = Outcome.raised s1 h1 := by
  have hp : String.ctor_s (some [97, 0]) exhausted_host = Outcome.fault ⟨none, 1, 1⟩
      ⟨[], [], [Call.VirtualAlloc none 1 none]⟩ := by decide
  refine ⟨by decide, hp, ?_⟩
  rintro ⟨s1, h1, e⟩
  rw [hp] at e
  cases e

/-- C6 (amended): for every source of `N > 0` bytes before its first NUL,
when the host does not supply `N` bytes the constructor reports no
out-of-memory condition and returns no buffer: it makes exactly one request,
for `N` bytes, allocates nothing, and stops. -/
theorem C6_ctor_s_refused (bs rest : List Nat) (h : Heap) (hnz : ∀ c ∈ bs, c ≠ 0)
    (hpos : 0 < bs.length) (hN : bs.length < u64_size)
    (hno : (h.VirtualAlloc none bs.length).1 = none) :
    ∃ hf, String.ctor_s (some (bs ++ 0 :: rest)) h
        = Outcome.fault ⟨none, bs.length, bs.length⟩ hf
      ∧ hf.blocks = h.blocks
      ∧ hf.trace = h.trace ++ [Call.VirtualAlloc none bs.length none] := by
  have hg : ¬ (h.willing = true ∧ 0 < bs.length ∧ bs.length < user_space) := by
    intro hc
    exact (fresh_result h bs.length).2 hc hno
  exact ⟨_, ctor_s_refused bs rest h hnz hpos hN hg, rfl, rfl⟩

theorem C6_witness :
    ∃ hf, String.ctor_s (some ([97, 98] ++ 0 :: [])) exhausted_host
        = Outcome.fault ⟨none, 2, 2⟩ hf
      ∧ hf.blocks = exhausted_host.blocks
      ∧ hf.trace = exhausted_host.trace ++ [Call.VirtualAlloc none 2 none] :=
  C6_ctor_s_refused [97, 98] [] exhausted_host (by decide) (by decide) (by decide) (by decide)

/-! ## The data-model invariant -/

/-- C7 (as stated, refuted): `String()` and then `push('x')` on a host that
refuses the byte: `push` stores the null result in `data`, sets `capacity`
to 1 and stops at the write through `data`; the fields it leaves break the
invariant (`capacity > 0` with null `data`). -/
theorem C7_counterexample :
    String.ctor exhausted_host = Outcome.ret ⟨none, 0, 0⟩ exhausted_host
      ∧ String.push ⟨none, 0, 0⟩ 120 exhausted_host = Outcome.fault ⟨none, 0, 1⟩
          ⟨[], [], [Call.VirtualAlloc none 1 none]⟩
      ∧ ¬ String.DataModel ⟨none, 0, 1⟩ ⟨[], [], [Call.VirtualAlloc none 1 none]⟩ := by
  refine ⟨by decide, by decide, ?_⟩
  intro hdm
  obtain ⟨r, n, hd, _⟩ := hdm.2.2 (by decide)
  cases hd

/-- C7 (amended): the data-model invariant holds in every state in which a
constructor followed by any number of `push` calls has returned, whatever
the host answers to their requests. -/
theorem C7_invariant_reachable (s : String) (h : Heap) (hr : Reachable s h) :
    s.DataModel h :=
  valid_dataModel (reachable_valid hr)

theorem C7_witness :
    String.DataModel ⟨some ⟨1, 0⟩, 3, 4⟩
      ⟨[⟨[97, 98], false⟩, ⟨[97, 98, 99, 0], true⟩], [true],
        [Call.VirtualAlloc none 2 (some ⟨0, 0⟩), Call.VirtualAlloc (some ⟨0, 2⟩) 2 none,
          Call.VirtualAlloc none 4 (some ⟨1, 0⟩), Call.VirtualFree (some ⟨0, 0⟩)]⟩ :=
  C7_invariant_reachable _ _
    (Reachable.pushed
      (Reachable.made (Or.inr ⟨some [97, 98, 0], sample_host,
        (by decide : String.ctor_s (some [97, 98, 0]) sample_host
          = Outcome.ret sample_ab sample_ab_heap)⟩))
      (by decide : sample_ab.push 99 sample_ab_heap = Outcome.ret ⟨some ⟨1, 0⟩, 3, 4⟩
        ⟨[⟨[97, 98], false⟩, ⟨[97, 98, 99, 0], true⟩], [true],
          [Call.VirtualAlloc none 2 (some ⟨0, 0⟩), Call.VirtualAlloc (some ⟨0, 2⟩) 2 none,
            Call.VirtualAlloc none 4 (some ⟨1, 0⟩), Call.VirtualFree (some ⟨0, 0⟩)]⟩))

/-! ## The empty buffer -/

/-- C8: for every empty buffer — returned by `String()`, by `String(nullptr)`,
by the constructor from a source that starts with its NUL, or any buffer
with `capacity = 0` that owns its storage — and every byte `b`, the one host
call `push(b)` makes is a request for exactly 1 byte, and when the host
grants it `push` returns with `len = capacity = 1` and content `[b]`. -/
theorem C8_push_on_empty (s : String) (h : Heap) (ch : Nat)
    (hempty : (∃ h0, String.ctor h0 = Outcome.ret s h)
      ∨ (∃ h0, String.ctor_s none h0 = Outcome.ret s h)
      ∨ (∃ rest h0, String.ctor_s (some (0 :: rest)) h0 = Outcome.ret s h)
      ∨ (s.Valid h ∧ s.capacity = 0)) :
    s.capacity = 0
      ∧ (s.push ch h).heap.trace = h.trace ++ [Call.VirtualAlloc none 1 (h.VirtualAlloc none 1).1]
      ∧ ((h.VirtualAlloc none 1).1 ≠ none →
          ∃ p h1, s.push ch h = Outcome.ret ⟨some p, 1, 1⟩ h1
            ∧ String.content ⟨some p, 1, 1⟩ h1 = [ch]) := by
  have hvc : s.Valid h ∧ s.capacity = 0 := by
    rcases hempty with ⟨h0, e⟩ | ⟨h0, e⟩ | ⟨rest, h0, e⟩ | hvc
    · refine ⟨constructed_valid (Or.inl ⟨h0, e⟩), ?_⟩
      simp only [String.ctor] at e
      injection e with hs _
      subst hs
      rfl
    · refine ⟨ctor_s_valid none h0 s h e, ?_⟩
      simp only [String.ctor_s] at e
      injection e with hs _
      subst hs
      rfl
    · refine ⟨ctor_s_valid _ h0 s h e, ?_⟩
      rw [ctor_s_empty] at e
      injection e with hs _
      subst hs
      rfl
    · exact hvc
  obtain ⟨hv, hcap⟩ := hvc
  refine ⟨hcap, ?_⟩
  rcases push_cases s ch h hv with ⟨_, hg, e⟩ | ⟨_, hno, e⟩ | ⟨_, _, _, _, _, _, hpos, _⟩
  · obtain ⟨hw, _, _⟩ := (fresh_result h 1).1 hg
    have ha := fresh_granted h 1 hw (by decide) (by decide)
    refine ⟨?_, fun _ => ⟨_, _, e, ?_⟩⟩
    · rw [e, ha]; rfl
    · simp [String.content]
  · refine ⟨?_, fun hg => absurd hno hg⟩
    rw [e, hno]; rfl
  · omega

theorem C8_witness :
    ∃ p h1, String.push ⟨none, 0, 0⟩ 120 sample_host = Outcome.ret ⟨some p, 1, 1⟩ h1
      ∧ String.content ⟨some p, 1, 1⟩ h1 = [120] :=
  (C8_push_on_empty ⟨none, 0, 0⟩ sample_host 120
    (Or.inl ⟨sample_host, by decide⟩)).2.2 (by decide)

/-- C9 (as stated, refuted): the constructor from a source that starts with
its NUL does make a request to the host, for 0 bytes. -/
theorem C9_counterexample :
    (String.ctor_s (some [0]) sample_host).heap.trace = [Call.VirtualAlloc none 0 none]
      ∧ (String.ctor_s (some [0]) sample_host).heap.trace ≠ sample_host.trace := by
  decide

/-- C9 (amended): `String()` and `String(nullptr)` return the empty buffer
(null `data`, `len = 0`, `capacity = 0`) and make no host call; the
constructor from a non-null source of 0 bytes returns the same empty buffer
and acquires no region, after one request to the host, for 0 bytes, which is
rejected. -/
theorem C9_empty_construction :
    (∀ h, String.ctor h = Outcome.ret ⟨none, 0, 0⟩ h)
      ∧ (∀ h, String.ctor_s none h = Outcome.ret ⟨none, 0, 0⟩ h)
      ∧ ∀ rest h, ∃ h1, String.ctor_s (some (0 :: rest)) h = Outcome.ret ⟨none, 0, 0⟩ h1
          ∧ h1.blocks = h.blocks ∧ h1.trace = h.trace ++ [Call.VirtualAlloc none 0 none] :=
  ⟨fun _ => rfl, fun _ => rfl, fun rest h => ⟨_, ctor_s_empty rest h, rfl, rfl⟩⟩

/-! ## The order of host calls on growth -/

/-- C10: on a full buffer that owns its storage, the first host call of
`push` is the in-place request for exactly `capacity` bytes at offset
`capacity` of the buffer's region.  When it is granted, `push` returns
having made no other call, with `data` unchanged.  When it is refused, the
next call is a request for a new region of exactly `2 × capacity` bytes; when
that is granted, `push` returns having made exactly one more call, the
release of the old region: `data` is the new region, whose first `len` bytes
are the old content, and the old region is no longer allocated. -/
theorem C10_growth_call_order (s : String) (ch : Nat) (h : Heap) (hv : s.Valid h)
    (hpos : 0 < s.len) (hfull : s.len = s.capacity) :
    (∃ rest, (s.push ch h).heap.trace = h.trace
        ++ Call.VirtualAlloc (Ptr.add s.data s.capacity) s.capacity (s.extendRequest h).1 :: rest)
    ∧ ((s.extendRequest h).1 ≠ none →
        ∃ h1, s.push ch h = Outcome.ret ⟨s.data, s.len + 1, 2 * s.capacity⟩ h1
          ∧ h1.trace = h.trace ++ [Call.VirtualAlloc (Ptr.add s.data s.capacity) s.capacity
              (Ptr.add s.data s.capacity)])
    ∧ ((s.extendRequest h).1 = none →
        (∃ rest, (s.push ch h).heap.trace = h.trace
          ++ Call.VirtualAlloc (Ptr.add s.data s.capacity) s.capacity none
            :: Call.VirtualAlloc none (2 * s.capacity) (s.freshRequest h).1 :: rest)
        ∧ ((s.freshRequest h).1 ≠ none →
            ∃ p h1, (s.freshRequest h).1 = some p
              ∧ s.push ch h = Outcome.ret ⟨some p, s.len + 1, 2 * s.capacity⟩ h1
              ∧ h1.trace = h.trace
                  ++ [Call.VirtualAlloc (Ptr.add s.data s.capacity) s.capacity none,
                      Call.VirtualAlloc none (2 * s.capacity) (some p),
                      Call.VirtualFree s.data]
              ∧ h1.load (some p) s.len = some (s.content h)
              ∧ h1.liveSize p.region = some (2 * s.capacity)
              ∧ h1.load s.data 0 = none)) := by
  rcases push_cases s ch h hv with ⟨hd, _, _⟩ | ⟨hd, _, _⟩ | ⟨r, blk, hd, hb, hl, hsz, hcp, hus, hc⟩
  · obtain ⟨h0, _⟩ := valid_none hd hv
    omega
  · obtain ⟨h0, _⟩ := valid_none hd hv
    omega
  · have hadd : Ptr.add s.data s.capacity = some ⟨r, s.capacity⟩ := by simp [hd, Ptr.add]
    have hrl := block_index_lt hb
    have hM2 : s.capacity * 2 % u64_size = 2 * s.capacity := by
      unfold user_space at hus; unfold u64_size; omega
    rcases hc with ⟨hlt, _⟩ | ⟨_, hext, _, e⟩ | ⟨_, hext, hfr, hroom, e⟩ | ⟨_, hext, hfr, e⟩
    · omega
    · obtain ⟨hw, hr2⟩ := (extend_result s h r blk hd hb hl hsz hcp).1 hext
      have hres : (s.extendRequest h).1 = some ⟨r, s.capacity⟩ := by
        simp [String.extendRequest, hd, Ptr.add, Heap.VirtualAlloc, hb, hl, hsz, hcp, hw, hr2]
      refine ⟨⟨[], ?_⟩, fun _ => ⟨_, e, ?_⟩, fun hn => absurd hn hext⟩
      · rw [e, hadd, hres]; rfl
      · rw [hadd]
    · have hno : ¬ (h.willing = true ∧ s.capacity + s.capacity < user_space) := by
        intro hc2
        exact (extend_result s h r blk hd hb hl hsz hcp).2 hc2 hext
      obtain ⟨hw2, _, _⟩ := (fresh_after_refused s h r blk hd hb hno).1 hfr
      have hres : (s.freshRequest h).1 = some ⟨h.blocks.length, 0⟩ := by
        simp only [String.freshRequest, String.extendRequest, hd, Ptr.add, Option.map,
          Nat.zero_add]
        rw [extend_refused s h r blk hb hno, hM2]
        have hw2b : (Heap.mk h.blocks h.answers.tail (h.trace
            ++ [Call.VirtualAlloc (some ⟨r, s.capacity⟩) s.capacity none])).willing = true := hw2
        rw [fresh_granted _ (2 * s.capacity) hw2b (by omega) hroom]
      refine ⟨⟨[Call.VirtualAlloc none (2 * s.capacity) (some ⟨h.blocks.length, 0⟩),
          Call.VirtualFree (some ⟨r, 0⟩)], ?_⟩, fun hn => absurd hext hn, fun _ =>
        ⟨⟨[Call.VirtualFree (some ⟨r, 0⟩)], ?_⟩, fun _ =>
          ⟨_, _, hres, e, ?_, ?_, ?_, ?_⟩⟩⟩
      · rw [e, hadd, hext]; rfl
      · rw [e, hadd, hres]; rfl
      · rw [hadd, hd]
      · have hcont : s.content h = blk.bytes.take s.len := by
          simp [String.content, hd, hb]
        rw [hcont]
        simp [Heap.load, hsz, hfull]
      · simp [Heap.liveSize, hsz, hfull]
        omega
      · have hget : (h.blocks.set r (⟨blk.bytes, false⟩ : Block)
            ++ [⟨(blk.bytes ++ List.replicate s.capacity 0).set s.len ch, true⟩])[r]?
            = some ⟨blk.bytes, false⟩ := by
          rw [List.getElem?_append_left (by simp; exact hrl)]
          simp [hrl]
        simp [Heap.load, hd, hget]
    · refine ⟨⟨[Call.VirtualAlloc none (2 * s.capacity) none], ?_⟩, fun hn => absurd hext hn,
        fun _ => ⟨⟨[], ?_⟩, fun hn => absurd hfr hn⟩⟩
      · rw [e, hadd, hext]; rfl
      · rw [e, hadd, hfr]; rfl

theorem C10_witness :
    ∃ p h1, (sample_ab.freshRequest sample_ab_heap).1 = some p
      ∧ sample_ab.push 99 sample_ab_heap = Outcome.ret ⟨some p, sample_ab.len + 1, 2 * sample_ab.capacity⟩ h1
      ∧ h1.trace = sample_ab_heap.trace
          ++ [Call.VirtualAlloc (Ptr.add sample_ab.data sample_ab.capacity) sample_ab.capacity none,
              Call.VirtualAlloc none (2 * sample_ab.capacity) (some p),
              Call.VirtualFree sample_ab.data]
      ∧ h1.load (some p) sample_ab.len = some (sample_ab.content sample_ab_heap)
      ∧ h1.liveSize p.region = some (2 * sample_ab.capacity)
      ∧ h1.load sample_ab.data 0 = none :=
  ((C10_growth_call_order sample_ab 99 sample_ab_heap
    (by simp [String.Valid, sample_ab, sample_ab_heap, Heap.liveSize, user_space])
    (by decide) (by decide)).2.2 (by decide)).2 (by decide)

/-! ## Machine arithmetic in `push` -/

theorem push_grow_ret (s s1 : String) (ch : Nat) (h h1 : Heap)
    (hr : s.push_grow ch h = Outcome.ret s1 h1) :
    s1.len = (s.len + 1) % u64_size ∧ s1.capacity = s.capacity * 2 % u64_size := by
  unfold String.push_grow at hr
  cases hst : h.store (Ptr.add s.data s.len) ch with
  | none => rw [hst] at hr; cases hr
  | some h2 =>
    rw [hst] at hr
    injection hr with hs _
    subst hs
    exact ⟨rfl, rfl⟩

/-- C16: with `len` and `capacity` taken modulo `2^64`, on a full buffer with
`0 < len = capacity < 2^63` the doubled capacity `capacity * 2 mod 2^64` is
`2 × capacity`, it is the size of the request for a new region, and `len + 1`
does not wrap; so whenever `push` returns, `capacity` has doubled (it did not
decrease), `len` went up by one and `len ≤ capacity` still holds; and `push`
returns when the buffer owns its storage and the host grants a request. -/
theorem C16_no_wrap_below_2_63 (s : String) (ch : Nat) (h : Heap) (hd : s.data ≠ none)
    (hpos : 0 < s.len) (hfull : s.len = s.capacity) (hlt : s.capacity < 2 ^ 63) :
    s.capacity * 2 % u64_size = 2 * s.capacity
      ∧ (s.len + 1) % u64_size = s.len + 1
      ∧ s.freshRequest h = (s.extendRequest h).2.VirtualAlloc none (2 * s.capacity)
      ∧ (∀ s1 h1, s.push ch h = Outcome.ret s1 h1 →
          s1.capacity = 2 * s.capacity ∧ s.capacity ≤ s1.capacity
            ∧ s1.len = s.len + 1 ∧ s1.len ≤ s1.capacity)
      ∧ (s.Valid h → s.Supplied h → ∃ s1 h1, s.push ch h = Outcome.ret s1 h1) := by
  have hpow : (2 : Nat) ^ 63 = 9223372036854775808 := by norm_num
  rw [hpow] at hlt
  have hM2 : s.capacity * 2 % u64_size = 2 * s.capacity := by
    unfold u64_size; omega
  have hM1 : (s.len + 1) % u64_size = s.len + 1 := by
    unfold u64_size; omega
  refine ⟨hM2, hM1, ?_, ?_, push_returns s ch h⟩
  · unfold String.freshRequest
    rw [hM2]
  · intro s1 h1 hp
    have hg : ∀ (s2 : String) (h2 : Heap), s2.len = s.len → s2.capacity = s.capacity →
        s2.push_grow ch h2 = Outcome.ret s1 h1 →
        s1.capacity = 2 * s.capacity ∧ s.capacity ≤ s1.capacity
          ∧ s1.len = s.len + 1 ∧ s1.len ≤ s1.capacity := by
      intro s2 h2 hl2 hc2 hr
      obtain ⟨e1, e2⟩ := push_grow_ret s2 s1 ch h2 h1 hr
      rw [hl2, hM1] at e1
      rw [hc2, hM2] at e2
      omega
    unfold String.push at hp
    rw [if_neg hd, if_pos hfull] at hp
    by_cases hx : (h.VirtualAlloc (Ptr.add s.data s.capacity) s.capacity).1 = none
    · simp only [hx, if_true] at hp
      cases hm : ((h.VirtualAlloc (Ptr.add s.data s.capacity) s.capacity).2.VirtualAlloc none
          (s.capacity * 2 % u64_size)).2.memcpy
          ((h.VirtualAlloc (Ptr.add s.data s.capacity) s.capacity).2.VirtualAlloc none
            (s.capacity * 2 % u64_size)).1 s.data s.len with
      | none => rw [hm] at hp; cases hp
      | some h3 =>
        rw [hm] at hp
        simp only at hp
        refine hg _ _ ?_ ?_ hp <;> rfl
    · simp only [hx, if_false] at hp
      exact hg _ _ rfl rfl hp

theorem C16_witness :
    sample_ab.capacity * 2 % u64_size = 2 * sample_ab.capacity
      ∧ (sample_ab.len + 1) % u64_size = sample_ab.len + 1
      ∧ (4 : Nat) = 2 * sample_ab.capacity ∧ sample_ab.capacity ≤ 4
      ∧ (3 : Nat) = sample_ab.len + 1 ∧ (3 : Nat) ≤ 4 :=
  have hall := C16_no_wrap_below_2_63 sample_ab 99 sample_ab_heap (by decide) (by decide)
    (by decide) (by decide)
  ⟨hall.1, hall.2.1,
    hall.2.2.2.1 ⟨some ⟨1, 0⟩, 3, 4⟩
      ⟨[⟨[97, 98], false⟩, ⟨[97, 98, 99, 0], true⟩], [true],
        sample_ab_heap.trace ++ [Call.VirtualAlloc (some ⟨0, 2⟩) 2 none,
          Call.VirtualAlloc none 4 (some ⟨1, 0⟩), Call.VirtualFree (some ⟨0, 0⟩)]⟩ (by decide)⟩

/-! ## The observers -/

/-- C12: `as_ptr` and `as_c_str` return the same pointer, the buffer's `data`:
null for an empty buffer, otherwise the base of the buffer's own allocated
region, through which the `len` bytes at offsets `[0, len)` read as the
content; the calls leave the fields and the whole heap (regions, content,
trace of host calls) as they were. -/
theorem C12_observers_pure (s : String) (h : Heap) (hv : s.Valid h) :
    (s.call_as_ptr h).1 = s.data
      ∧ (s.call_as_c_str h).1 = (s.call_as_ptr h).1
      ∧ (s.capacity = 0 → (s.call_as_ptr h).1 = none ∧ s.content h = [])
      ∧ (0 < s.capacity → ∃ r, (s.call_as_ptr h).1 = base r
          ∧ h.liveSize r = some s.capacity
          ∧ h.load (s.call_as_ptr h).1 s.len = some (s.content h)
          ∧ (s.content h).length = s.len)
      ∧ (s.call_as_ptr h).2 = (s, h) ∧ (s.call_as_c_str h).2 = (s, h) := by
  refine ⟨rfl, rfl, ?_, ?_, rfl, rfl⟩
  · intro hc
    cases hd : s.data with
    | none => exact ⟨hd, by simp [String.content, hd]⟩
    | some p =>
      obtain ⟨_, hpos, _⟩ := valid_some hd hv
      omega
  · intro hpos
    cases hd : s.data with
    | none =>
      obtain ⟨_, h2⟩ := valid_none hd hv
      omega
    | some p =>
      obtain ⟨hoff, _, hle, _, blk, hb, hl, hsz⟩ := valid_some hd hv
      obtain ⟨r, o⟩ := p
      simp only at hoff hb
      subst hoff
      refine ⟨r, ?_, ?_, ?_, ?_⟩
      · simp [String.call_as_ptr, String.as_ptr, hd, base]
      · rw [← hsz]; exact liveSize_of_block hb hl
      · simp [String.call_as_ptr, String.as_ptr, hd, Heap.load, hb, hl, hsz, hle,
          String.content]
      · simp [String.content, hd, hb, hsz, hle]

theorem C12_witness :
    ∃ r, (sample_abcde.call_as_ptr sample_abcde_heap).1 = base r
      ∧ sample_abcde_heap.liveSize r = some sample_abcde.capacity
      ∧ sample_abcde_heap.load (sample_abcde.call_as_ptr sample_abcde_heap).1 sample_abcde.len
          = some (sample_abcde.content sample_abcde_heap)
      ∧ (sample_abcde.content sample_abcde_heap).length = sample_abcde.len :=
  (C12_observers_pure sample_abcde sample_abcde_heap
    (by simp [String.Valid, sample_abcde, sample_abcde_heap, Heap.liveSize, user_space])).2.2.2.1
    (by decide)

/-! ## The scan for the terminator -/

/-- A sequence that contains a zero splits at its first zero. -/
theorem first_nul_split (cs : List Nat) (hz : 0 ∈ cs) :
    ∃ bs rest, cs = bs ++ 0 :: rest ∧ (∀ c ∈ bs, c ≠ 0)
      ∧ cs.indexOf 0 = bs.length ∧ cs.take (cs.indexOf 0) = bs := by
  induction cs with
  | nil => simp at hz
  | cons c cs ih =>
    by_cases hc : c = 0
    · subst hc
      exact ⟨[], cs, rfl, by simp, by simp, by simp⟩
    · have hz2 : 0 ∈ cs := by
        rcases List.mem_cons.1 hz with h0 | h0
        · exact absurd h0.symm hc
        · exact h0
      obtain ⟨bs, rest, hcs, hnz, hidx, htake⟩ := ih hz2
      have hi : (c :: cs).indexOf 0 = cs.indexOf 0 + 1 := List.indexOf_cons_ne cs hc
      refine ⟨c :: bs, rest, by rw [hcs]; rfl, ?_, ?_, ?_⟩
      · intro d hd
        rcases List.mem_cons.1 hd with h0 | h0
        · rw [h0]; exact hc
        · exact hnz d h0
      · rw [hi, hidx]; rfl
      · rw [hi, List.take_succ_cons, htake]

/-- C15: for every non-null source that contains a zero byte (and fits the
64-bit address space), the scan ends with its count one past the index of the
first zero byte; `len` is set to that index; and when the host supplies the
region (nothing needs supplying for index 0) the constructor returns a buffer
whose content is the bytes strictly before the first zero: the region holds
exactly those bytes, so neither the NUL nor anything after it is copied, and
the content contains no zero byte. -/
theorem C15_scan_first_nul (cs : List Nat) (h : Heap) (hz : 0 ∈ cs)
    (hfit : cs.length < u64_size) :
    scan cs 0 = some (cs.indexOf 0 + 1)
      ∧ (String.ctor_s (some cs) h).self.len = cs.indexOf 0
      ∧ ((0 < cs.indexOf 0 → (h.VirtualAlloc none (cs.indexOf 0)).1 ≠ none) →
          ∃ p h1, String.ctor_s (some cs) h
              = Outcome.ret ⟨p, cs.indexOf 0, cs.indexOf 0⟩ h1
            ∧ String.content ⟨p, cs.indexOf 0, cs.indexOf 0⟩ h1 = cs.take (cs.indexOf 0)
            ∧ 0 ∉ String.content ⟨p, cs.indexOf 0, cs.indexOf 0⟩ h1
            ∧ ∀ q, p = some q →
                ∃ blk, h1.blocks[q.region]? = some blk ∧ blk.bytes = cs.take (cs.indexOf 0)) := by
  obtain ⟨bs, rest, hcs, hnz, hidx, htake⟩ := first_nul_split cs hz
  rw [hidx] at htake
  rw [hidx, htake]
  subst hcs
  have hlen1 : bs.length + 1 < u64_size := by
    simp only [List.length_append, List.length_cons] at hfit
    omega
  have hlen : bs.length < u64_size := by omega
  have hnot : 0 ∉ bs := fun h0 => hnz 0 h0 rfl
  refine ⟨?_, ?_, ?_⟩
  · rw [scan_terminated bs rest hnz 0]
    congr 1
    clear hfit
    unfold u64_size at *
    omega
  · by_cases hpos : 0 < bs.length
    · by_cases hg : h.willing = true ∧ 0 < bs.length ∧ bs.length < user_space
      · rw [ctor_s_granted bs rest h hnz hpos hg.2.2 hg.1]; rfl
      · rw [ctor_s_refused bs rest h hnz hpos hlen hg]; rfl
    · have hnil : bs = [] := List.length_eq_zero.1 (by omega)
      subst hnil
      rw [List.nil_append, ctor_s_empty rest h]; rfl
  · intro hsup
    by_cases hpos : 0 < bs.length
    · obtain ⟨hw, _, hN⟩ := (fresh_result h bs.length).1 (hsup hpos)
      refine ⟨_, _, ctor_s_granted bs rest h hnz hpos hN hw, ?_, ?_, ?_⟩
      · simp [String.content]
      · simp [String.content, hnot]
      · intro q hq
        injection hq with hq
        subst hq
        exact ⟨⟨bs, true⟩, by simp, rfl⟩
    · have hnil : bs = [] := List.length_eq_zero.1 (by omega)
      subst hnil
      refine ⟨_, _, ctor_s_empty rest h, rfl, by simp [String.content], ?_⟩
      intro q hq
      cases hq

theorem C15_witness :
    scan [97, 98, 0, 99, 0] 0 = some (List.indexOf 0 [97, 98, 0, 99, 0] + 1)
      ∧ (String.ctor_s (some [97, 98, 0, 99, 0]) sample_host).self.len
          = List.indexOf 0 [97, 98, 0, 99, 0]
      ∧ ∃ p h1, String.ctor_s (some [97, 98, 0, 99, 0]) sample_host
            = Outcome.ret ⟨p, List.indexOf 0 [97, 98, 0, 99, 0],
                List.indexOf 0 [97, 98, 0, 99, 0]⟩ h1
          ∧ String.content ⟨p, List.indexOf 0 [97, 98, 0, 99, 0],
                List.indexOf 0 [97, 98, 0, 99, 0]⟩ h1
              = List.take (List.indexOf 0 [97, 98, 0, 99, 0]) [97, 98, 0, 99, 0]
          ∧ 0 ∉ String.content ⟨p, List.indexOf 0 [97, 98, 0, 99, 0],
                List.indexOf 0 [97, 98, 0, 99, 0]⟩ h1
          ∧ ∀ q, p = some q → ∃ blk, h1.blocks[q.region]? = some blk
              ∧ blk.bytes = List.take (List.indexOf 0 [97, 98, 0, 99, 0]) [97, 98, 0, 99, 0] :=
  have hall := C15_scan_first_nul [97, 98, 0, 99, 0] sample_host (by decide) (by decide)
  ⟨hall.1, hall.2.1, hall.2.2 (by decide)⟩

/-! ## The closed form of the capacity -/

theorem constructed_len_eq_capacity {s : String} {h : Heap} (hc : s.Constructed h) :
    s.len = s.capacity := by
  rcases hc with ⟨h0, e⟩ | ⟨src, h0, e⟩
  · simp only [String.ctor] at e
    injection e with hs _
    subst hs
    rfl
  · cases src with
    | none =>
      simp only [String.ctor_s] at e
      injection e with hs _
      subst hs
      rfl
    | some cs =>
      cases hscan : scan cs 0 with
      | none => simp [String.ctor_s, hscan] at e
      | some slen =>
        rw [ctor_s_unfold cs h0 slen hscan] at e
        generalize (if slen = 0 then u64_size - 1 else slen - 1) = n at e
        cases hm : (h0.VirtualAlloc none n).2.CopyMemory (h0.VirtualAlloc none n).1 cs n with
        | none => rw [hm] at e; cases e
        | some h2 =>
          rw [hm] at e
          injection e with hs _
          subst hs
          rfl

/-- One returned `push` keeps the capacity of the form `N * 2^j` with every
smaller such value below `len`. -/
theorem push_ret_closed_form (N : Nat) (hN : 0 < N) (s s1 : String) (ch : Nat) (h h1 : Heap)
    (hv : s.Valid h) (hq : ∃ j, s.capacity = N * 2 ^ j ∧ ∀ i, i < j → N * 2 ^ i < s.len)
    (hp : s.push ch h = Outcome.ret s1 h1) :
    ∃ j, s1.capacity = N * 2 ^ j ∧ ∀ i, i < j → N * 2 ^ i < s1.len := by
  obtain ⟨j, hj, hlow⟩ := hq
  obtain ⟨_, hl1, _, hcap⟩ := push_ret_facts s s1 ch h h1 hv hp
  have hpos : 0 < N * 2 ^ j := Nat.mul_pos hN (Nat.pow_pos (by decide))
  rcases hcap with ⟨hd, _⟩ | ⟨_, _, hc, _⟩ | ⟨_, hfull, hc⟩
  · obtain ⟨_, h0⟩ := valid_none hd hv
    omega
  · refine ⟨j, by rw [hc, hj], fun i hi => ?_⟩
    have := hlow i hi
    omega
  · refine ⟨j + 1, by rw [hc, hj, pow_succ]; ring, fun i hi => ?_⟩
    by_cases hij : i < j
    · have := hlow i hij
      omega
    · have hie : i = j := by omega
      subst hie
      omega

theorem pushAll_closed_form (N : Nat) (hN : 0 < N) (chs : List Nat) (s0 s : String)
    (h0 h : Heap) (hv : s0.Valid h0)
    (hq : ∃ j, s0.capacity = N * 2 ^ j ∧ ∀ i, i < j → N * 2 ^ i < s0.len)
    (hrun : s0.pushAll h0 chs = Outcome.ret s h) :
    ∃ j, s.capacity = N * 2 ^ j ∧ ∀ i, i < j → N * 2 ^ i < s.len := by
  induction chs generalizing s0 h0 with
  | nil =>
    simp only [String.pushAll] at hrun
    injection hrun with hs _
    subst hs
    exact hq
  | cons ch rest ih =>
    simp only [String.pushAll] at hrun
    cases hp : s0.push ch h0 with
    | ret s1 h1 =>
      rw [hp] at hrun
      exact ih s1 h1 (push_ret_facts s0 s1 ch h0 h1 hv hp).1
        (push_ret_closed_form N hN s0 s1 ch h0 h1 hv hq hp) hrun
    | raised s1 h1 => rw [hp] at hrun; cases hrun
    | fault s1 h1 => rw [hp] at hrun; cases hrun

/-- C13: after a constructor and `k` returned `push` calls, the capacity of a
buffer made with `N ≥ 1` bytes is `N * 2^j` for the least `j` with
`N * 2^j ≥ N + k`, and the capacity of a buffer made empty is, for `k ≥ 1`,
the least power of two that is at least `k`. -/
theorem C13_capacity_closed_form (s0 : String) (h0 : Heap) (hc : s0.Constructed h0)
    (chs : List Nat) (s : String) (h : Heap) (hrun : s0.pushAll h0 chs = Outcome.ret s h) :
    (0 < s0.len → ∃ j, s.capacity = s0.len * 2 ^ j ∧ s0.len + chs.length ≤ s0.len * 2 ^ j
        ∧ ∀ i, i < j → s0.len * 2 ^ i < s0.len + chs.length)
      ∧ (s0.len = 0 → chs ≠ [] → ∃ j, s.capacity = 2 ^ j ∧ chs.length ≤ 2 ^ j
          ∧ ∀ i, i < j → 2 ^ i < chs.length) := by
  have hv0 := constructed_valid hc
  have hlc := constructed_len_eq_capacity hc
  obtain ⟨hv, hlen, _⟩ := pushAll_ret_facts chs s0 s h0 h hv0 hrun
  have hle := (valid_dataModel hv).1
  constructor
  · intro hpos
    obtain ⟨j, hj, hlow⟩ := pushAll_closed_form s0.len hpos chs s0 s h0 h hv0
      ⟨0, by rw [← hlc]; simp, fun i hi => absurd hi (Nat.not_lt_zero i)⟩ hrun
    refine ⟨j, hj, by omega, fun i hi => ?_⟩
    have := hlow i hi
    omega
  · intro hzero hne
    cases chs with
    | nil => exact absurd rfl hne
    | cons ch rest =>
      simp only [String.pushAll] at hrun
      cases hp : s0.push ch h0 with
      | ret s1 h1 =>
        rw [hp] at hrun
        obtain ⟨hv1, hl1, _, hcap⟩ := push_ret_facts s0 s1 ch h0 h1 hv0 hp
        have hc1 : s1.capacity = 1 := by
          rcases hcap with ⟨_, h1c⟩ | ⟨_, hlt, _⟩ | ⟨_, _, h2c⟩
          · exact h1c
          · omega
          · have := (valid_dataModel hv1).1
            omega
        obtain ⟨j, hj, hlow⟩ := pushAll_closed_form 1 (by decide) rest s1 s h1 h hv1
          ⟨0, by rw [hc1]; rfl, fun i hi => absurd hi (Nat.not_lt_zero i)⟩ hrun
        rw [Nat.one_mul] at hj
        simp only [List.length_cons] at hlen ⊢
        refine ⟨j, hj, by omega, fun i hi => ?_⟩
        have := hlow i hi
        rw [Nat.one_mul] at this
        omega
      | raised s1 h1 => rw [hp] at hrun; cases hrun
      | fault s1 h1 => rw [hp] at hrun; cases hrun

theorem C13_witness :
    String.ctor_s (some [97, 98, 0]) sample_host = Outcome.ret sample_ab sample_ab_heap
      ∧ sample_ab.capacity = 2
      ∧ (sample_ab.pushAll sample_ab_heap [99]).self.capacity = 4
      ∧ (sample_ab.pushAll sample_ab_heap [99, 100]).self.capacity = 4
      ∧ sample_ab.pushAll sample_ab_heap [99, 100, 101]
          = Outcome.ret sample_abcde sample_abcde_heap
      ∧ sample_abcde.capacity = 8 ∧ sample_abcde.len = 5
      ∧ sample_abcde.content sample_abcde_heap = [97, 98, 99, 100, 101]
      ∧ ∃ j, sample_abcde.capacity = sample_ab.len * 2 ^ j
          ∧ sample_ab.len + 3 ≤ sample_ab.len * 2 ^ j
          ∧ ∀ i, i < j → sample_ab.len * 2 ^ i < sample_ab.len + 3 :=
  have hmk : String.ctor_s (some [97, 98, 0]) sample_host
      = Outcome.ret sample_ab sample_ab_heap := by decide
  have hrun : sample_ab.pushAll sample_ab_heap [99, 100, 101]
      = Outcome.ret sample_abcde sample_abcde_heap := by decide
  ⟨hmk, by decide, by decide, by decide, hrun, by decide, by decide, by decide,
    (C13_capacity_closed_form sample_ab sample_ab_heap (Or.inr ⟨_, _, hmk⟩) [99, 100, 101]
      sample_abcde sample_abcde_heap hrun).1 (by decide)⟩

/-! ## Bounds of the accesses made by `push` -/

/-- The in-place request of a full buffer, when granted: the region has
doubled. -/
theorem extendRequest_granted (s : String) (h : Heap) (r : Nat) (blk : Block)
    (hd : s.data = some ⟨r, 0⟩) (hb : h.blocks[r]? = some blk) (hl : blk.live = true)
    (hsz : blk.bytes.length = s.capacity) (hpos : 0 < s.capacity)
    (hw : h.willing = true) (hroom : s.capacity + s.capacity < user_space) :
    s.extendRequest h = (some ⟨r, s.capacity⟩,
      ⟨h.blocks.set r ⟨blk.bytes ++ List.replicate s.capacity 0, true⟩, h.answers.tail,
        h.trace ++ [Call.VirtualAlloc (some ⟨r, s.capacity⟩) s.capacity
          (some ⟨r, s.capacity⟩)]⟩) := by
  simp [String.extendRequest, hd, Ptr.add, Heap.VirtualAlloc, hb, hl, hsz, hpos, hw, hroom]

/-- The request for a new region after a refused in-place request, when
granted: a zero-filled region of twice the capacity is added. -/
theorem freshRequest_granted (s : String) (h : Heap) (r : Nat) (blk : Block)
    (hd : s.data = some ⟨r, 0⟩) (hb : h.blocks[r]? = some blk)
    (hno : ¬ (h.willing = true ∧ s.capacity + s.capacity < user_space))
    (hw2 : h.answers.tail.headD false = true) (hpos : 0 < s.capacity)
    (hroom : 2 * s.capacity < user_space) :
    s.freshRequest h = (some ⟨h.blocks.length, 0⟩,
      ⟨h.blocks ++ [⟨List.replicate (2 * s.capacity) 0, true⟩], h.answers.tail.tail,
        h.trace ++ [Call.VirtualAlloc (some ⟨r, s.capacity⟩) s.capacity none,
          Call.VirtualAlloc none (2 * s.capacity) (some ⟨h.blocks.length, 0⟩)]⟩) := by
  have hM2 : s.capacity * 2 % u64_size = 2 * s.capacity := by
    unfold user_space at hroom; unfold u64_size; omega
  simp only [String.freshRequest, String.extendRequest, hd, Ptr.add, Option.map, Nat.zero_add]
  rw [extend_refused s h r blk hb hno, hM2]
  have hw2b : (Heap.mk h.blocks h.answers.tail (h.trace
      ++ [Call.VirtualAlloc (some ⟨r, s.capacity⟩) s.capacity none])).willing = true := hw2
  rw [fresh_granted _ (2 * s.capacity) hw2b (by omega) hroom]
  simp

/-- C14: on a buffer that owns its storage, after a granted request `push`
returns, and the heap it returns is the one left by accesses that all lie
inside an allocated region.  Empty branch: `push` is the store at offset 0 of
the new 1-byte region.  Spare room: `push` is the store at offset
`len < capacity` of the buffer's region of `capacity` bytes.  Full, extended
in place: `push` is the store at offset `len < 2 × capacity` of the region,
now of `2 × capacity` bytes.  Full, moved: `push` is the copy that reads
`len ≤ capacity` bytes from the old region while it is still allocated and
writes them into the new region of `2 × capacity` bytes, then the release of
the old region, then the store at offset `len < 2 × capacity` of the new
one. -/
theorem C14_push_accesses_in_bounds (s : String) (ch : Nat) (h : Heap) (hv : s.Valid h) :
    (s.data = none → ∀ p, (h.VirtualAlloc none 1).1 = some p →
        (h.VirtualAlloc none 1).2.liveSize p.region = some 1 ∧ p.offset = 0
          ∧ ∃ h2, (h.VirtualAlloc none 1).2.store (some p) ch = some h2
              ∧ s.push ch h = Outcome.ret ⟨some p, 1, 1⟩ h2)
    ∧ (∀ q, s.data = some q → s.len < s.capacity →
        h.liveSize q.region = some s.capacity ∧ q.offset + s.len < s.capacity
          ∧ ∃ h2, h.store (Ptr.add s.data s.len) ch = some h2
              ∧ s.push ch h = Outcome.ret ⟨s.data, s.len + 1, s.capacity⟩ h2)
    ∧ (∀ q, s.data = some q → s.len = s.capacity → (s.extendRequest h).1 ≠ none →
        (s.extendRequest h).2.liveSize q.region = some (2 * s.capacity)
          ∧ q.offset + s.len < 2 * s.capacity
          ∧ ∃ h2, (s.extendRequest h).2.store (Ptr.add s.data s.len) ch = some h2
              ∧ s.push ch h = Outcome.ret ⟨s.data, s.len + 1, 2 * s.capacity⟩ h2)
    ∧ (∀ q p, s.data = some q → s.len = s.capacity → (s.extendRequest h).1 = none →
        (s.freshRequest h).1 = some p →
        (s.freshRequest h).2.liveSize q.region = some s.capacity
          ∧ q.offset + s.len ≤ s.capacity
          ∧ (s.freshRequest h).2.liveSize p.region = some (2 * s.capacity)
          ∧ p.offset + s.len ≤ 2 * s.capacity
          ∧ ∃ h3, (s.freshRequest h).2.memcpy (some p) s.data s.len = some h3
              ∧ (h3.VirtualFree s.data).liveSize p.region = some (2 * s.capacity)
              ∧ p.offset + s.len < 2 * s.capacity
              ∧ ∃ h5, (h3.VirtualFree s.data).store (Ptr.add (some p) s.len) ch = some h5
                  ∧ s.push ch h = Outcome.ret ⟨some p, s.len + 1, 2 * s.capacity⟩ h5) := by
  refine ⟨?_, ?_, ?_, ?_⟩
  · intro hd p hp
    have hne : (h.VirtualAlloc none 1).1 ≠ none := by rw [hp]; simp
    obtain ⟨hw, _, _⟩ := (fresh_result h 1).1 hne
    have hst : ∃ h2, (h.VirtualAlloc none 1).2.store (h.VirtualAlloc none 1).1 ch = some h2 := by
      rw [fresh_granted h 1 hw (by decide) (by decide)]
      simp [Heap.store]
    obtain ⟨h2, hst⟩ := hst
    have hpush : s.push ch h = Outcome.ret ⟨(h.VirtualAlloc none 1).1, 1, 1⟩ h2 := by
      unfold String.push
      rw [if_pos hd]
      simp only [hst]
    rw [hp] at hst hpush
    refine ⟨?_, ?_, h2, hst, hpush⟩
    · rw [fresh_granted h 1 hw (by decide) (by decide)] at hp ⊢
      injection hp with hp
      subst hp
      simp [Heap.liveSize]
    · rw [fresh_granted h 1 hw (by decide) (by decide)] at hp
      injection hp with hp
      subst hp
      rfl
  · intro q hd hlt
    obtain ⟨hoff, _, _, hus, blk, hb, hl, hsz⟩ := valid_some hd hv
    have hM1 : (s.len + 1) % u64_size = s.len + 1 := by
      unfold user_space at hus; unfold u64_size; omega
    have hst : ∃ h2, h.store (Ptr.add s.data s.len) ch = some h2 := by
      simp [Heap.store, Ptr.add, hd, hb, hl, hsz, hoff, hlt]
    obtain ⟨h2, hst⟩ := hst
    have hdn : s.data ≠ none := by rw [hd]; simp
    have hpush : s.push ch h
        = Outcome.ret ⟨s.data, (s.len + 1) % u64_size, s.capacity⟩ h2 := by
      unfold String.push
      rw [if_neg hdn, if_neg (by omega)]
      simp only [hst]
    rw [hM1] at hpush
    exact ⟨by rw [← hsz]; exact liveSize_of_block hb hl, by omega, h2, hst, hpush⟩
  · intro q hd hfull hext
    obtain ⟨hoff, hpos, _, hus, blk, hb, hl, hsz⟩ := valid_some hd hv
    obtain ⟨r, o⟩ := q
    simp only at hoff hb
    subst hoff
    obtain ⟨hw, hroom⟩ := (extend_result s h r blk hd hb hl hsz hpos).1 hext
    have hrl := block_index_lt hb
    have hM1 : (s.len + 1) % u64_size = s.len + 1 := by
      unfold user_space at hus; unfold u64_size; omega
    have hM2 : s.capacity * 2 % u64_size = 2 * s.capacity := by
      unfold user_space at hus; unfold u64_size; omega
    have hst : ∃ h2, (s.extendRequest h).2.store (Ptr.add s.data s.len) ch = some h2 := by
      rw [extendRequest_granted s h r blk hd hb hl hsz hpos hw hroom]
      simp [Heap.store, Ptr.add, hd, hrl, hsz, hfull, hpos]
    obtain ⟨h2, hst⟩ := hst
    have hdn : s.data ≠ none := by rw [hd]; simp
    have hpush : s.push ch h
        = Outcome.ret ⟨s.data, (s.len + 1) % u64_size, s.capacity * 2 % u64_size⟩ h2 := by
      unfold String.extendRequest at hext hst
      unfold String.push
      rw [if_neg hdn, if_pos hfull]
      simp only [hext, if_false, String.push_grow, hst]
    rw [hM1, hM2] at hpush
    refine ⟨?_, by simp only; omega, h2, hst, hpush⟩
    rw [extendRequest_granted s h r blk hd hb hl hsz hpos hw hroom]
    simp [Heap.liveSize, hrl, hsz]
    omega
  · intro q p hd hfull hext hfr
    obtain ⟨hoff, hpos, _, hus, blk, hb, hl, hsz⟩ := valid_some hd hv
    obtain ⟨r, o⟩ := q
    simp only at hoff hb
    subst hoff
    have hrl := block_index_lt hb
    have hno : ¬ (h.willing = true ∧ s.capacity + s.capacity < user_space) := by
      intro hc
      exact (extend_result s h r blk hd hb hl hsz hpos).2 hc hext
    have hne : (s.freshRequest h).1 ≠ none := by rw [hfr]; simp
    obtain ⟨hw2, h0, hroom⟩ := (fresh_after_refused s h r blk hd hb hno).1 hne
    have hM1 : (s.len + 1) % u64_size = s.len + 1 := by
      unfold user_space at hus; unfold u64_size; omega
    have hM2 : s.capacity * 2 % u64_size = 2 * s.capacity := by
      unfold user_space at hus; unfold u64_size; omega
    rw [hM2] at hroom
    have hreq := freshRequest_granted s h r blk hd hb hno hw2 hpos hroom
    have hp : p = ⟨h.blocks.length, 0⟩ := by
      rw [hreq] at hfr
      injection hfr with hfr
      exact hfr.symm
    subst hp
    have hcp := memcpy_into_fresh h.blocks h.answers.tail.tail
      (h.trace ++ [Call.VirtualAlloc (some ⟨r, s.capacity⟩) s.capacity none,
        Call.VirtualAlloc none (2 * s.capacity) (some ⟨h.blocks.length, 0⟩)])
      r (2 * s.capacity) blk hb hl (by omega) (by omega)
    rw [hsz] at hcp
    have hget : (h.blocks ++ [(⟨List.replicate (2 * s.capacity) 0, true⟩ : Block)])[r]?
        = some blk := by
      rw [List.getElem?_append_left hrl]; exact hb
    have hget2 : (h.blocks
        ++ [(⟨blk.bytes ++ List.replicate (2 * s.capacity - s.capacity) 0, true⟩ : Block)])[r]?
        = some blk := by
      rw [List.getElem?_append_left hrl]; exact hb
    have hcp2 : (s.freshRequest h).2.memcpy (some ⟨h.blocks.length, 0⟩) s.data s.len
        = some ⟨h.blocks
            ++ [⟨blk.bytes ++ List.replicate (2 * s.capacity - s.capacity) 0, true⟩],
          h.answers.tail.tail,
          h.trace ++ [Call.VirtualAlloc (some ⟨r, s.capacity⟩) s.capacity none,
            Call.VirtualAlloc none (2 * s.capacity) (some ⟨h.blocks.length, 0⟩)]⟩ := by
      rw [hreq, hd, hfull]
      exact hcp
    have hst : ∃ h5, ((Heap.mk (h.blocks
          ++ [⟨blk.bytes ++ List.replicate (2 * s.capacity - s.capacity) 0, true⟩])
          h.answers.tail.tail
          (h.trace ++ [Call.VirtualAlloc (some ⟨r, s.capacity⟩) s.capacity none,
            Call.VirtualAlloc none (2 * s.capacity) (some ⟨h.blocks.length, 0⟩)])).VirtualFree
          s.data).store (Ptr.add (some ⟨h.blocks.length, 0⟩) s.len) ch = some h5 := by
      simp [Heap.VirtualFree, hd, hget2, Heap.store, Ptr.add, hsz, hfull,
        List.set_append_left r _ hrl]
      omega
    obtain ⟨h5, hst⟩ := hst
    have hdn : s.data ≠ none := by rw [hd]; simp
    have hcp3 := hcp2
    rw [← hfr] at hcp3
    have hst3 := hst
    rw [← hfr] at hst3
    have hpush : s.push ch h = Outcome.ret
        ⟨(s.freshRequest h).1, (s.len + 1) % u64_size, s.capacity * 2 % u64_size⟩ h5 := by
      unfold String.freshRequest at hcp3 hst3 ⊢
      unfold String.extendRequest at hext hcp3 hst3 ⊢
      unfold String.push
      rw [if_neg hdn, if_pos hfull]
      simp only [hext, if_true, hcp3, String.push_grow, hst3]
    rw [hM1, hM2, hfr] at hpush
    refine ⟨?_, by simp only; omega, ?_, by simp; omega, _, hcp2, ?_, by simp; omega,
      h5, hst, hpush⟩
    · rw [hreq]
      simp [Heap.liveSize, hget, hl, hsz]
    · rw [hreq]
      simp [Heap.liveSize]
    · simp [Heap.VirtualFree, hd, hget2, Heap.liveSize, hsz, List.set_append_left r _ hrl]
      omega

theorem C14_witness :
    (sample_ab.freshRequest sample_ab_heap).2.liveSize 0 = some sample_ab.capacity
      ∧ 0 + sample_ab.len ≤ sample_ab.capacity
      ∧ (sample_ab.freshRequest sample_ab_heap).2.liveSize 1 = some (2 * sample_ab.capacity)
      ∧ 0 + sample_ab.len ≤ 2 * sample_ab.capacity
      ∧ ∃ h3, (sample_ab.freshRequest sample_ab_heap).2.memcpy (some ⟨1, 0⟩) sample_ab.data
            sample_ab.len = some h3
          ∧ (h3.VirtualFree sample_ab.data).liveSize 1 = some (2 * sample_ab.capacity)
          ∧ 0 + sample_ab.len < 2 * sample_ab.capacity
          ∧ ∃ h5, (h3.VirtualFree sample_ab.data).store (Ptr.add (some ⟨1, 0⟩) sample_ab.len) 99
                = some h5
              ∧ sample_ab.push 99 sample_ab_heap
                = Outcome.ret ⟨some ⟨1, 0⟩, sample_ab.len + 1, 2 * sample_ab.capacity⟩ h5 :=
  (C14_push_accesses_in_bounds sample_ab 99 sample_ab_heap
    (by simp [String.Valid, sample_ab, sample_ab_heap, Heap.liveSize, user_space])).2.2.2
    ⟨0, 0⟩ ⟨1, 0⟩ (by decide) (by decide) (by decide) (by decide)

/-! ## Releases over the lifetime of a buffer -/

theorem releases_append (a b : List Call) : releases (a ++ b) = releases a ++ releases b := by
  induction a with
  | nil => rfl
  | cons c a ih =>
    cases c with
    | VirtualAlloc p n r => simpa [releases] using ih
    | VirtualFree p => simpa [releases] using ih

/-- The destructor on a buffer with non-null `data` that owns its storage. -/
theorem destroy_some (s : String) (h : Heap) (r : Nat) (blk : Block)
    (hd : s.data = some ⟨r, 0⟩) (hb : h.blocks[r]? = some blk) :
    s.destroy h = ⟨h.blocks.set r ⟨blk.bytes, false⟩, h.answers,
      h.trace ++ [Call.VirtualFree (some ⟨r, 0⟩)]⟩ := by
  simp [String.destroy, hd, Heap.VirtualFree, hb]

/-- The destructor of a buffer that owns its storage makes exactly one host
call, the release of `data`, when `capacity > 0`, and none when the buffer is
empty. -/
theorem destroy_calls (s : String) (h : Heap) (hv : s.Valid h) :
    (0 < s.capacity →
      (s.destroy h).trace = h.trace ++ [Call.VirtualFree s.data]
        ∧ releases (s.destroy h).trace = releases h.trace ++ [s.data])
    ∧ (s.capacity = 0 → s.destroy h = h) := by
  constructor
  · intro hpos
    cases hd : s.data with
    | none =>
      obtain ⟨_, h2⟩ := valid_none hd hv
      omega
    | some p =>
      obtain ⟨hoff, _, _, _, blk, hb, _, _⟩ := valid_some hd hv
      obtain ⟨r, o⟩ := p
      simp only at hoff hb
      subst hoff
      rw [destroy_some s h r blk hd hb]
      exact ⟨rfl, by simp [releases_append, releases]⟩
  · intro hzero
    cases hd : s.data with
    | none => simp [String.destroy, hd]
    | some p =>
      obtain ⟨_, hpos, _⟩ := valid_some hd hv
      omega

/-- C11 (the code at the failing input): a buffer made from 65536 bytes, one
`push` whose in-place request the host grants, then the destructor.  The
host calls made are the request for the region, the granted request at
`data + 65536`, and one `VirtualFree(data)`: the address returned by the
granted in-place request is acquired and is never passed to `VirtualFree`. -/
theorem C11_extension_never_released :
    String.ctor_s (some (List.replicate 65536 97 ++ [0])) granting_host
        = Outcome.ret sample_64k sample_64k_heap
      ∧ sample_64k.push 120 sample_64k_heap
        = Outcome.ret sample_64k_grown sample_64k_grown_heap
      ∧ (sample_64k_grown.destroy sample_64k_grown_heap).trace
        = [Call.VirtualAlloc none 65536 (some ⟨0, 0⟩),
           Call.VirtualAlloc (some ⟨0, 65536⟩) 65536 (some ⟨0, 65536⟩),
           Call.VirtualFree (some ⟨0, 0⟩)]
      ∧ acquired (sample_64k_grown.destroy sample_64k_grown_heap).trace
        = [some ⟨0, 0⟩, some ⟨0, 65536⟩]
      ∧ releases (sample_64k_grown.destroy sample_64k_grown_heap).trace = [some ⟨0, 0⟩]
      ∧ some ⟨0, 65536⟩ ∉ releases (sample_64k_grown.destroy sample_64k_grown_heap).trace := by
  have hlen : (List.replicate 65536 97).length = 65536 := List.length_replicate _ _
  have hnz : ∀ c ∈ List.replicate 65536 97, c ≠ 0 := by
    intro c hc
    rw [List.eq_of_mem_replicate hc]
    decide
  have e1 := ctor_s_granted (List.replicate 65536 97) [] granting_host hnz
    (by rw [hlen]; decide) (by rw [hlen]; decide) (by decide)
  rw [hlen] at e1
  have e2 := push_full_extended sample_64k 120 sample_64k_heap 0 ⟨List.replicate 65536 97, true⟩
    rfl rfl rfl hlen rfl (by decide) (by decide) (by decide)
  have e3 := destroy_some sample_64k_grown sample_64k_grown_heap 0
    (Block.mk ((List.replicate 65536 97 ++ List.replicate 65536 0).set 65536 120) true)
    rfl (by rfl)
  have ht : (sample_64k_grown.destroy sample_64k_grown_heap).trace
      = [Call.VirtualAlloc none 65536 (some ⟨0, 0⟩),
         Call.VirtualAlloc (some ⟨0, 65536⟩) 65536 (some ⟨0, 65536⟩),
         Call.VirtualFree (some ⟨0, 0⟩)] := by
    rw [e3]
    rfl
  refine ⟨e1, e2, ht, ?_, ?_, ?_⟩
  · rw [ht]; rfl
  · rw [ht]; rfl
  · rw [ht]; decide

end tanelorn
